import Mathlib

/-!
Verification development for the youtube-ai-summarizer repository.

Part 1 models the block parser `parseSummary` (src/server/index.ts, lines
441-576).  The JavaScript code is a single pass over `summary.split("\n")`
with loop-local mutable state (`currentTimestamp`, `currentPoint`,
`inCodeBlock`, `emptyLineCount`, `summaryPoints`); here that state is the
structure `Parser.PState` threaded through a per-line transition function
`Parser.stepLine` (which also receives the lookahead line, because the
timestamp branch may consume `lines[i+1]` and advance `i`), and the loop is
the structurally recursive `Parser.scan`.

Strings are handled as `List Char`.  JavaScript's `\d` is exactly `[0-9]`
(`Char.isDigit`); `\s` and `String.prototype.trim` cover the same ASCII
whitespace as `Char.isWhitespace` on the inputs that occur here (space, tab,
CR, LF).
-/

namespace Parser

/-- `String.prototype.trim`: drop leading and trailing whitespace. -/
def trimChars (l : List Char) : List Char :=
  ((l.dropWhile Char.isWhitespace).reverse.dropWhile Char.isWhitespace).reverse

/-- `line.trim().startsWith("```")` (index.ts line 463): fence-marker test. -/
def isFenceLine (l : List Char) : Bool :=
  [Char.ofNat 96, Char.ofNat 96, Char.ofNat 96].isPrefixOf (trimChars l)

/-- Try to match the regex `\d+:\d+(?::\d+)?` anchored at the head of `l`,
returning the greedily matched characters (index.ts line 470).  Backtracking
cannot help a failed maximal digit run here, so maximal-munch is exact. -/
def matchTsAt (l : List Char) : Option (List Char) :=
  let d1 := l.takeWhile Char.isDigit
  if d1 = [] then none
  else
    match l.dropWhile Char.isDigit with
    | ':' :: r2 =>
      let d2 := r2.takeWhile Char.isDigit
      if d2 = [] then none
      else
        match r2.dropWhile Char.isDigit with
        | ':' :: r4 =>
          let d3 := r4.takeWhile Char.isDigit
          if d3 = [] then some (d1 ++ ':' :: d2)
          else some (d1 ++ ':' :: d2 ++ ':' :: d3)
        | _ => some (d1 ++ ':' :: d2)
    | _ => none

/-- Leftmost match of `\d+:\d+(?::\d+)?` in the line, as
`line.match(/(\d+:\d+(?::\d+)?)/)` computes it (group 1 = whole match). -/
def firstTsMatch : List Char → Option (List Char)
  | [] => none
  | c :: rest =>
    match matchTsAt (c :: rest) with
    | some m => some m
    | none => firstTsMatch rest

/-- `hay.indexOf(needle)` for a needle known to occur; on a missing needle
this returns `hay.length` (the call sites only use present needles). -/
def indexOfSub : List Char → List Char → Nat
  | [], _ => 0
  | c :: t, needle =>
    if needle.isPrefixOf (c :: t) then 0 else indexOfSub t needle + 1

/-- Character class `[:\s-]` of the separator-stripping regex
`/^[:\s-]+/` (index.ts line 523). -/
def isSepChar (c : Char) : Bool :=
  c = ':' || c = '-' || c.isWhitespace

/-- `/^#{1,6}\s/` applied to the trimmed line (index.ts line 538): one to
six `#` then a whitespace character.  A seventh `#` defeats every
backtracking choice, so the test is: the maximal leading `#` run has length
1..6 and is followed by whitespace. -/
def headingMatch (t : List Char) : Bool :=
  let h := t.takeWhile (· = '#')
  decide (1 ≤ h.length) && decide (h.length ≤ 6) &&
    (match t.drop h.length with
     | c :: _ => c.isWhitespace
     | [] => false)

/-- One structured output unit (`{ timestamp, point }`). -/
structure SummaryPoint where
  timestamp : String
  point : String
deriving DecidableEq, Repr

/-- The loop-local mutable variables of `parseSummary`. -/
structure PState where
  currentTimestamp : List Char
  currentPoint : List Char
  inCodeBlock : Bool
  emptyLineCount : Nat
  points : List SummaryPoint
deriving DecidableEq, Repr

def initState : PState :=
  { currentTimestamp := [], currentPoint := [], inCodeBlock := false,
    emptyLineCount := 0, points := [] }

/-- Push `currentPoint.trim()` with the tracked timestamp (the repeated
`summaryPoints.push({timestamp: currentTimestamp, point: currentPoint.trim()})`). -/
def PState.pushPoint (st : PState) : List SummaryPoint :=
  st.points ++ [⟨⟨st.currentTimestamp⟩, ⟨trimChars st.currentPoint⟩⟩]

/-- Process one line.  `next?` is the lookahead `lines[i+1]` (if any); the
returned `Bool` is true when the timestamp branch consumed the lookahead
line (the `i++` at index.ts line 528).  Branch order follows the source:
fence toggle, in-code passthrough, blank line, then (with the blank counter
reset) timestamp, heading, plain append. -/
def stepLine (st : PState) (line : List Char) (next? : Option (List Char)) :
    PState × Bool :=
  if isFenceLine line then
    ({ st with inCodeBlock := !st.inCodeBlock,
               currentPoint := st.currentPoint ++ line ++ ['\n'] }, false)
  else if st.inCodeBlock then
    ({ st with currentPoint := st.currentPoint ++ line ++ ['\n'] }, false)
  else if trimChars line = [] then
    let cp := st.currentPoint ++ ['\n']
    let ec := st.emptyLineCount + 1
    if ec > 1 ∧ 0 < (trimChars cp).length then
      ({ st with emptyLineCount := ec, currentPoint := [],
                 points := (PState.mk st.currentTimestamp cp st.inCodeBlock
                             st.emptyLineCount st.points).pushPoint }, false)
    else
      ({ st with emptyLineCount := ec, currentPoint := cp }, false)
  else
    match firstTsMatch line with
    | some m =>
      let pts := if 0 < (trimChars st.currentPoint).length
                 then st.pushPoint else st.points
      let contentAfter := line.drop (indexOfSub line m + m.length)
      if 0 < (trimChars contentAfter).length then
        ({ currentTimestamp := m,
           currentPoint := trimChars (contentAfter.dropWhile isSepChar) ++ ['\n'],
           inCodeBlock := st.inCodeBlock, emptyLineCount := 0,
           points := pts }, false)
      else
        match next? with
        | some next =>
          if 0 < (trimChars next).length then
            ({ currentTimestamp := m, currentPoint := trimChars next ++ ['\n'],
               inCodeBlock := st.inCodeBlock, emptyLineCount := 0,
               points := pts }, true)
          else
            ({ currentTimestamp := m, currentPoint := ['\n'],
               inCodeBlock := st.inCodeBlock, emptyLineCount := 0,
               points := pts }, false)
        | none =>
          ({ currentTimestamp := m, currentPoint := ['\n'],
             inCodeBlock := st.inCodeBlock, emptyLineCount := 0,
             points := pts }, false)
    | none =>
      if headingMatch (trimChars line) then
        let pts := if 0 < (trimChars st.currentPoint).length
                   then st.pushPoint else st.points
        ({ st with emptyLineCount := 0, currentPoint := line ++ ['\n'],
                   points := pts }, false)
      else
        ({ st with emptyLineCount := 0,
                   currentPoint := st.currentPoint ++ line ++ ['\n'] }, false)

/-- End of input (index.ts lines 557-563): push a final non-blank point. -/
def finish (st : PState) : List SummaryPoint :=
  if 0 < (trimChars st.currentPoint).length then st.pushPoint else st.points

/-- The scan loop over the split lines. -/
def scan : PState → List (List Char) → List SummaryPoint
  | st, [] => finish st
  | st, [line] => finish (stepLine st line none).1
  | st, line :: next :: rest =>
    let r := stepLine st line (some next)
    if r.2 then scan r.1 rest else scan r.1 (next :: rest)

/-- `summary.split("\n")` on the character list. -/
def splitLines (l : List Char) : List (List Char) :=
  l.splitOn '\n'

/-- `parseSummary` (index.ts lines 441-576).  The early return for blank
input, the scan, and the zero-points fallback.  The `try/catch` wrapper is
dead in this model: no step of the computation throws. -/
def parseSummary (summary : String) : List SummaryPoint :=
  if trimChars summary.toList = [] then []
  else
    let pts := scan initState (splitLines summary.toList)
    if pts = [] ∧ 0 < (trimChars summary.toList).length then
      [⟨"", ⟨trimChars summary.toList⟩⟩]
    else pts

end Parser

example : Parser.parseSummary "0:01 first\n\n\nsecond" =
    [⟨"0:01", "first"⟩, ⟨"0:01", "second"⟩] := by decide

example : Parser.parseSummary "0:01 intro\n## Section Two\nmore text" =
    [⟨"0:01", "intro"⟩, ⟨"0:01", "## Section Two\nmore text"⟩] := by decide

example : Parser.parseSummary "```\n1:23 not a timestamp\n``` " =
    [⟨"", "```\n1:23 not a timestamp\n```"⟩] := by decide

example : Parser.parseSummary "   \n " = [] := by decide

/-!
Part 2 models the two cache backends.

* `Cache.Sql`: the better-sqlite3 backend (src/unnamed/part_000).  A table
  row is an `SRow` (the `id INTEGER PRIMARY KEY AUTOINCREMENT` column plus
  the record); the table is the list `rows` in insertion (rowid) order
  together with the next fresh id.  `INSERT OR REPLACE` under the
  `UNIQUE(video_id, style)` constraint deletes every conflicting row and
  appends the new row with a fresh id; the scalar subquery
  `COALESCE((SELECT created_at ...), ?)` is evaluated against the table
  before the replace.  `ORDER BY accessed_at` leaves the order of ties
  unspecified in SQLite; the model resolves ties by rowid, which never
  matters in a theorem below (they all assume distinct stamps where order
  of ties could be observed).

* `Cache.Json`: the whole-file JSON backend (src/unnamed/part_001); the
  file is the list of records.  `Array.prototype.sort` is stable, as is
  `List.mergeSort`.

ISO-8601 timestamp strings (`new Date().toISOString()`) are modelled as
naturals: the strings are fixed-width, so their lexicographic order (used
by the SQL `ORDER BY`) and the `getTime()` numeric order (used by the JSON
sort comparators) both coincide with the order on the modelled naturals.
-/

namespace Cache

/-- The `SummaryData` interface: the caller-supplied fields of a `put`. -/
structure SummaryData where
  videoId : String
  videoUrl : String
  title : String
  summary : String
  style : String
deriving DecidableEq, Repr

/-- The persisted `SummaryRecord` shape shared by both backends. -/
structure SummaryRecord where
  video_id : String
  video_url : String
  title : String
  summary : String
  style : String
  created_at : Nat
  accessed_at : Nat
deriving DecidableEq, Repr

/-- The `WHERE video_id = ? AND style = ?` / `record.video_id === videoId
&& record.style === style` test. -/
def keyMatches (r : SummaryRecord) (videoId style : String) : Bool :=
  r.video_id == videoId && r.style == style

/-- The record a `put` writes (both backends build exactly this, with
`created_at` possibly overridden by the existing record's). -/
def SummaryData.toRecord (data : SummaryData) (createdAt accessedAt : Nat) :
    SummaryRecord :=
  { video_id := data.videoId, video_url := data.videoUrl, title := data.title,
    summary := data.summary, style := data.style,
    created_at := createdAt, accessed_at := accessedAt }

/-- A row of the `summaries` table: rowid plus record. -/
structure SRow where
  id : Nat
  record : SummaryRecord
deriving DecidableEq, Repr

/-- The SQLite database state: rows in rowid order, next fresh rowid. -/
structure SqliteDb where
  rows : List SRow
  nextId : Nat
deriving DecidableEq, Repr

def emptySql : SqliteDb := ⟨[], 1⟩

/-- The whole-file JSON database state. -/
structure JsonDb where
  summaries : List SummaryRecord
deriving DecidableEq, Repr

def emptyJson : JsonDb := ⟨[]⟩

namespace Sql

/-- `ORDER BY accessed_at ASC` on rows, ties by rowid (see the namespace
comment on tie order). -/
def ascRow (a b : SRow) : Bool :=
  decide (a.record.accessed_at < b.record.accessed_at ∨
    (a.record.accessed_at = b.record.accessed_at ∧ a.id ≤ b.id))

/-- `ORDER BY accessed_at DESC`, ties by rowid. -/
def descRow (a b : SRow) : Bool :=
  decide (b.record.accessed_at < a.record.accessed_at ∨
    (b.record.accessed_at = a.record.accessed_at ∧ a.id ≤ b.id))

/-- `checkSummaryExists` (part_000 lines 55-59): `SELECT COUNT(*) ... > 0`. -/
def checkSummaryExists (db : SqliteDb) (videoId style : String) : Bool :=
  decide (0 < db.rows.countP (fun r => keyMatches r.record videoId style))

/-- `getCachedSummary` (part_000 lines 62-77): `SELECT *` first matching
row, then on a hit `UPDATE summaries SET accessed_at = ? WHERE ...`; the
value returned to the caller is the row as read, before the update. -/
def getCachedSummary (db : SqliteDb) (videoId style : String) (now : Nat) :
    Option SummaryRecord × SqliteDb :=
  match db.rows.find? (fun r => keyMatches r.record videoId style) with
  | some row =>
    (some row.record,
     { db with rows := db.rows.map (fun r =>
         if keyMatches r.record videoId style then
           { r with record := { r.record with accessed_at := now } }
         else r) })
  | none => (none, db)

/-- The scalar subquery `COALESCE((SELECT created_at FROM summaries WHERE
video_id = ? AND style = ?), ?)` of `saveSummary`, evaluated against the
table before the replace. -/
def createdAtQuery (db : SqliteDb) (data : SummaryData) (now : Nat) : Nat :=
  match db.rows.find? (fun r => keyMatches r.record data.videoId data.style) with
  | some r => r.record.created_at
  | none => now

/-- The `INSERT OR REPLACE` of `saveSummary` (part_000 lines 85-104). -/
def insertOrReplace (db : SqliteDb) (data : SummaryData) (now : Nat) :
    SqliteDb :=
  let createdAt := createdAtQuery db data now
  { rows := db.rows.filter
        (fun r => !(keyMatches r.record data.videoId data.style)) ++
      [⟨db.nextId, data.toRecord createdAt now⟩],
    nextId := db.nextId + 1 }

/-- The capacity enforcement of `saveSummary` (part_000 lines 106-122):
when `COUNT(*) > 100`, delete the rows whose ids the
`ORDER BY accessed_at ASC LIMIT (count - 100)` subquery returns. -/
def enforceLimit (db : SqliteDb) : SqliteDb :=
  let count := db.rows.length
  if count > 100 then
    let victims := ((db.rows.mergeSort ascRow).take (count - 100)).map (·.id)
    { db with rows := db.rows.filter (fun r => !(victims.contains r.id)) }
  else db

/-- `saveSummary` (part_000 lines 80-126), non-failing path. -/
def saveSummary (db : SqliteDb) (data : SummaryData) (now : Nat) : SqliteDb :=
  enforceLimit (insertOrReplace db data now)

/-- Failure points of the `try` block of `saveSummary`: the `INSERT OR
REPLACE` statement, the `COUNT(*)` statement, or the `DELETE` statement. -/
inductive SqlFail
  | noFail
  | atInsert
  | atCount
  | atDelete
deriving DecidableEq, Repr

/-- The `try` block of `saveSummary` with a failure oracle: returns the
database state left behind (each statement is atomic, so a failing
statement leaves the state of the statements already run) and the thrown
error, if any. -/
def saveSummaryAttempt (db : SqliteDb) (data : SummaryData) (now : Nat)
    (f : SqlFail) : SqliteDb × Option String :=
  if f = .atInsert then (db, some "insert failed")
  else
    let afterInsert := insertOrReplace db data now
    if f = .atCount then (afterInsert, some "count failed")
    else if afterInsert.rows.length > 100 ∧ f = .atDelete then
      (afterInsert, some "delete failed")
    else (enforceLimit afterInsert, none)

/-- `saveSummary` with its `catch`: the error is logged and swallowed, the
call returns normally with the state the failing statement left behind. -/
def saveSummaryCaught (db : SqliteDb) (data : SummaryData) (now : Nat)
    (f : SqlFail) : Except String SqliteDb :=
  match saveSummaryAttempt db data now f with
  | (st, some _msg) => Except.ok st
  | (st, none) => Except.ok st

/-- `getRecentSummaries` (part_000 lines 129-137). -/
def getRecentSummaries (db : SqliteDb) (limit : Nat) : List SummaryRecord :=
  ((db.rows.mergeSort descRow).take limit).map (·.record)

end Sql

namespace Json

/-- The JSON sort comparator `(a, b) => getTime(a.accessed_at) -
getTime(b.accessed_at)` (ascending, stable). -/
def ascRec (a b : SummaryRecord) : Bool := a.accessed_at ≤ b.accessed_at

/-- Descending comparator of `getRecentSummaries`. -/
def descRec (a b : SummaryRecord) : Bool := b.accessed_at ≤ a.accessed_at

/-- `checkSummaryExists` (part_001 lines 70-75): `summaries.some(...)`. -/
def checkSummaryExists (db : JsonDb) (videoId style : String) : Bool :=
  db.summaries.any (fun r => keyMatches r videoId style)

/-- The `created_at` a `put` ends up writing: the first matching record's
(the `existingIndex` branch keeps `db.summaries[existingIndex].created_at`)
or, with no match, the fresh stamp. -/
def createdAtOf (db : JsonDb) (data : SummaryData) (now : Nat) : Nat :=
  match db.summaries.find? (fun r => keyMatches r data.videoId data.style) with
  | some r => r.created_at
  | none => now

/-- Update the first matching record in place (the in-place mutation of the
object `find` returned, part_001 lines 87-91). -/
def updateFirst (l : List SummaryRecord) (videoId style : String)
    (now : Nat) : List SummaryRecord :=
  match l with
  | [] => []
  | r :: t =>
    if keyMatches r videoId style then { r with accessed_at := now } :: t
    else r :: updateFirst t videoId style now

/-- `getCachedSummary` (part_001 lines 78-94): `find` the record, stamp
`accessed_at`, rewrite the file, return the (mutated) record. -/
def getCachedSummary (db : JsonDb) (videoId style : String) (now : Nat) :
    Option SummaryRecord × JsonDb :=
  match db.summaries.find? (fun r => keyMatches r videoId style) with
  | some r =>
    (some { r with accessed_at := now },
     ⟨updateFirst db.summaries videoId style now⟩)
  | none => (none, db)

/-- The `existingIndex >= 0` branch of `saveSummary` (part_001 lines
116-119): replace the record at the found index, carrying over its
`created_at`; `none` when `findIndex` returns `-1`. -/
def replaceFirst (l : List SummaryRecord) (videoId style : String)
    (newRec : SummaryRecord) : Option (List SummaryRecord) :=
  match l with
  | [] => none
  | r :: t =>
    if keyMatches r videoId style then
      some ({ newRec with created_at := r.created_at } :: t)
    else (replaceFirst t videoId style newRec).map (r :: ·)

/-- The push-then-evict branch of `saveSummary` (part_001 lines 120-135):
append, and above 100 records sort ascending by `accessed_at` (stable) and
keep the final 100 (`slice(length - 100)`). -/
def pushAndEvict (l : List SummaryRecord) (newRec : SummaryRecord) :
    List SummaryRecord :=
  let pushed := l ++ [newRec]
  if pushed.length > 100 then
    (pushed.mergeSort ascRec).drop (pushed.length - 100)
  else pushed

/-- `saveSummary` (part_001 lines 97-139), non-failing path. -/
def saveSummary (db : JsonDb) (data : SummaryData) (now : Nat) : JsonDb :=
  let newRecord := data.toRecord now now
  match replaceFirst db.summaries data.videoId data.style newRecord with
  | some l => ⟨l⟩
  | none => ⟨pushAndEvict db.summaries newRecord⟩

/-- `saveSummary` with the backend failure modes: `readDatabase` catches a
read error and yields `{ summaries: [] }` (part_001 lines 43-49);
`writeDatabase` catches a write error and leaves the file as it was
(part_001 lines 53-59).  Neither error reaches the caller. -/
def saveSummaryF (file : JsonDb) (data : SummaryData) (now : Nat)
    (readFails writeFails : Bool) : JsonDb :=
  let db := if readFails then emptyJson else file
  let newDb := saveSummary db data now
  if writeFails then file else newDb

/-- `getRecentSummaries` (part_001 lines 142-152). -/
def getRecentSummaries (db : JsonDb) (limit : Nat) : List SummaryRecord :=
  (db.summaries.mergeSort descRec).take limit

end Json

/-- The capability surface of the cache (§4.2 of the spec): one operation
request. -/
inductive CacheOp
  | checkExists (videoId style : String)
  | getSummary (videoId style : String)
  | putSummary (data : SummaryData)
  | listRecent (limit : Nat)
deriving DecidableEq, Repr

/-- The result an operation returns to the caller. -/
inductive CacheOut
  | boolOut (b : Bool)
  | recOut (r : Option SummaryRecord)
  | unitOut
  | listOut (l : List SummaryRecord)
deriving DecidableEq, Repr

/-- One operation against the SQLite backend, at clock value `t`. -/
def sqlStep (db : SqliteDb) (op : CacheOp) (t : Nat) : CacheOut × SqliteDb :=
  match op with
  | .checkExists v s => (.boolOut (Sql.checkSummaryExists db v s), db)
  | .getSummary v s =>
    let r := Sql.getCachedSummary db v s t
    (.recOut r.1, r.2)
  | .putSummary data => (.unitOut, Sql.saveSummary db data t)
  | .listRecent n => (.listOut (Sql.getRecentSummaries db n), db)

/-- One operation against the JSON backend, at clock value `t`. -/
def jsonStep (db : JsonDb) (op : CacheOp) (t : Nat) : CacheOut × JsonDb :=
  match op with
  | .checkExists v s => (.boolOut (Json.checkSummaryExists db v s), db)
  | .getSummary v s =>
    let r := Json.getCachedSummary db v s t
    (.recOut r.1, r.2)
  | .putSummary data => (.unitOut, Json.saveSummary db data t)
  | .listRecent n => (.listOut (Json.getRecentSummaries db n), db)

/-- Run a sequence of clock-stamped operations against the SQLite backend,
collecting the outputs. -/
def sqlRun : SqliteDb → List (CacheOp × Nat) → List CacheOut × SqliteDb
  | db, [] => ([], db)
  | db, (op, t) :: rest =>
    let r := sqlStep db op t
    let rr := sqlRun r.2 rest
    (r.1 :: rr.1, rr.2)

/-- Run a sequence of clock-stamped operations against the JSON backend. -/
def jsonRun : JsonDb → List (CacheOp × Nat) → List CacheOut × JsonDb
  | db, [] => ([], db)
  | db, (op, t) :: rest =>
    let r := jsonStep db op t
    let rr := jsonRun r.2 rest
    (r.1 :: rr.1, rr.2)

/-- A sequence of bare `put` operations (data with clock stamps) applied to
the SQLite backend. -/
def runPutsSql (ops : List (SummaryData × Nat)) : SqliteDb :=
  ops.foldl (fun db p => Sql.saveSummary db p.1 p.2) emptySql

/-- A sequence of bare `put` operations applied to the JSON backend. -/
def runPutsJson (ops : List (SummaryData × Nat)) : JsonDb :=
  ops.foldl (fun db p => Json.saveSummary db p.1 p.2) emptyJson

/-- A store at capacity: 100 rows with pairwise distinct keys, rowids and
stamps, used to exercise the eviction path at the boundary. -/
def wRows : List SRow :=
  (List.range 100).map
    (fun i => ⟨i + 1, ⟨String.append "v" (toString i), "u", "t", "s", "sty", i, i⟩⟩)

def wSqlDb : SqliteDb := ⟨wRows, 101⟩

def wJsonDb : JsonDb := ⟨wRows.map SRow.record⟩

/-- A record whose key is fresh with respect to `wRows`. -/
def wData : SummaryData := ⟨"x", "u", "t", "s", "sty"⟩

namespace SummaryRecord

/-- The cache key (`UNIQUE(video_id, style)`). -/
def key (r : SummaryRecord) : String × String := (r.video_id, r.style)

end SummaryRecord

/-- The data-model invariant "(subjectId, style) is unique across all live
records", for the JSON backend. -/
abbrev jsonKeysNodup (db : JsonDb) : Prop :=
  (db.summaries.map SummaryRecord.key).Nodup

/-- Key uniqueness for the SQLite backend. -/
abbrev sqlKeysNodup (db : SqliteDb) : Prop :=
  (db.rows.map (fun r => r.record.key)).Nodup

/-- Rowids are pairwise distinct. -/
abbrev sqlIdsNodup (db : SqliteDb) : Prop := (db.rows.map SRow.id).Nodup

/-- Every rowid is below the autoincrement counter. -/
abbrev sqlIdsBound (db : SqliteDb) : Prop := ∀ r ∈ db.rows, r.id < db.nextId

/-- Every stored `accessed_at` stamp is strictly older than `t` (the clock
has moved on since every store mutation). -/
abbrev sqlFresh (db : SqliteDb) (t : Nat) : Prop :=
  ∀ r ∈ db.rows, r.record.accessed_at < t

/-- JSON-backend version of `sqlFresh`. -/
abbrev jsonFresh (db : JsonDb) (t : Nat) : Prop :=
  ∀ r ∈ db.summaries, r.accessed_at < t

/-- Stored `accessed_at` stamps are pairwise distinct (SQLite). -/
abbrev sqlAccNodup (db : SqliteDb) : Prop :=
  (db.rows.map (fun r => r.record.accessed_at)).Nodup

/-- Stored `accessed_at` stamps are pairwise distinct (JSON). -/
abbrev jsonAccNodup (db : JsonDb) : Prop :=
  (db.summaries.map SummaryRecord.accessed_at).Nodup

/-- `new` is `old` with exactly the first record at the key restamped to
`now`: every other record, the order, and every other field of the stamped
record are unchanged. -/
def stampedAtKey (old new : List SummaryRecord) (videoId style : String)
    (now : Nat) : Prop :=
  ∃ pre a b, old = a ++ pre :: b ∧
    new = a ++ { pre with accessed_at := now } :: b ∧
    (∀ x ∈ a, keyMatches x videoId style = false) ∧
    keyMatches pre videoId style = true

/-- The output adjustment that separates the two backends: on a `get` hit
the JSON backend returns the record with the freshly written `accessed_at`
stamp, the SQLite backend returns it as read before the update.  Every
other output is identical. -/
def adjustOut (t : Nat) : CacheOut → CacheOut
  | .recOut (some r) => .recOut (some { r with accessed_at := t })
  | o => o

/-- Clock stamps attached to an operation sequence are strictly
increasing. -/
abbrev clockStrictMono (ops : List (CacheOp × Nat)) : Prop :=
  (ops.map Prod.snd).Chain' (· < ·)

end Cache

/-!
Theorems.  Helper lemmas come first; the claim theorems are the ones whose
doc comments name a claim id.
-/

namespace Parser

theorem headingMatch_head {t : List Char} (h : headingMatch t = true) :
    ∃ t', t = '#' :: t' := by
  cases t with
  | nil => simp [headingMatch] at h
  | cons c t' =>
    by_cases hc : c = '#'
    · exact ⟨t', by rw [hc]⟩
    · simp [headingMatch, List.takeWhile, hc] at h

theorem isFenceLine_of_trim_nil {l : List Char} (h : trimChars l = []) :
    isFenceLine l = false := by
  simp [isFenceLine, h, List.isPrefixOf]

end Parser

/-- C2: `parseSummary` returns the empty sequence exactly on blank input:
for every input string, the result is `[]` iff the input trims to nothing
(the blank early-return); on non-blank input the zero-points fallback
guarantees a non-empty result. -/
theorem parse_empty_iff_blank (s : String) :
    Parser.parseSummary s = [] ↔ Parser.trimChars s.toList = [] := by
  unfold Parser.parseSummary
  by_cases h : Parser.trimChars s.toList = []
  · rw [if_pos h]
    exact ⟨fun _ => h, fun _ => rfl⟩
  · rw [if_neg h]
    constructor
    · intro hres
      by_cases hp : Parser.scan Parser.initState (Parser.splitLines s.toList) = []
      · rw [if_pos ⟨hp, List.length_pos.2 h⟩] at hres
        exact absurd hres (by simp)
      · rw [if_neg (fun hc => hp hc.1)] at hres
        exact absurd hres hp
    · intro hc
      exact absurd hc h

/-- C4: fenced-block opacity.  (1) In the `InFencedBlock` state every line
is appended verbatim (with its newline) to the accumulating point — no
timestamp or heading detection, no point is closed, and the tracked
timestamp is untouched; only the fence flag may toggle (on a fence-marker
line).  (2) The input `"```\n1:23 not a timestamp\n``` "` parses to exactly
one point whose text holds the fence-marker lines verbatim (up to the final
trim of the whole point) and whose timestamp is empty. -/
theorem fenced_block_opacity :
    (∀ (st : Parser.PState) (line : List Char) (next? : Option (List Char)),
      st.inCodeBlock = true →
      Parser.stepLine st line next? =
        ({ st with currentPoint := st.currentPoint ++ line ++ ['\n'],
                   inCodeBlock := !(Parser.isFenceLine line) }, false)) ∧
    Parser.parseSummary "```\n1:23 not a timestamp\n``` " =
      [⟨"", "```\n1:23 not a timestamp\n```"⟩] := by
  constructor
  · intro st line next? h
    cases hf : Parser.isFenceLine line <;>
      cases st <;> simp_all [Parser.stepLine]
  · decide

/-- Witness for C4 at a concrete state and line. -/
theorem fenced_block_opacity_witness :
    Parser.stepLine ⟨['0'], ['x'], true, 0, []⟩ ['a'] none =
      ({ Parser.PState.mk ['0'] ['x'] true 0 [] with
           currentPoint := ['x'] ++ ['a'] ++ ['\n'],
           inCodeBlock := !(Parser.isFenceLine ['a']) }, false) :=
  fenced_block_opacity.1 ⟨['0'], ['x'], true, 0, []⟩ ['a'] none rfl

/-- C5: double-blank-line segmentation with timestamp carry-over.  (1) In
`Normal` state, a blank line that is at least the second consecutive one,
with non-whitespace accumulated content, closes the point and pushes it
with the currently tracked timestamp; the accumulator restarts empty and
the tracked timestamp is retained (the result state keeps
`currentTimestamp`).  (2) `parse("0:01 first\n\n\nsecond")` yields exactly
`{timestamp:"0:01", text:"first"}` then `{timestamp:"0:01", text:"second"}`. -/
theorem double_blank_segmentation :
    (∀ (st : Parser.PState) (line : List Char) (next? : Option (List Char)),
      st.inCodeBlock = false →
      Parser.trimChars line = [] →
      0 < st.emptyLineCount →
      0 < (Parser.trimChars (st.currentPoint ++ ['\n'])).length →
      Parser.stepLine st line next? =
        ({ st with emptyLineCount := st.emptyLineCount + 1,
                   currentPoint := [],
                   points := st.points ++
                     [⟨⟨st.currentTimestamp⟩,
                       ⟨Parser.trimChars (st.currentPoint ++ ['\n'])⟩⟩] }, false)) ∧
    Parser.parseSummary "0:01 first\n\n\nsecond" =
      [⟨"0:01", "first"⟩, ⟨"0:01", "second"⟩] := by
  constructor
  · intro st line next? hcode hblank hec hcp
    have hf := Parser.isFenceLine_of_trim_nil hblank
    have hgt : st.emptyLineCount + 1 > 1 := by omega
    simp [Parser.stepLine, hf, hcode, hblank, hgt, hcp, Parser.PState.pushPoint]
  · decide

/-- Witness for C5 at a concrete state and blank line. -/
theorem double_blank_segmentation_witness :
    Parser.stepLine ⟨['0'], ['x'], false, 1, []⟩ [' '] none =
      ({ Parser.PState.mk ['0'] ['x'] false 1 [] with
           emptyLineCount := 2, currentPoint := [],
           points := [] ++ [⟨⟨['0']⟩, ⟨Parser.trimChars (['x'] ++ ['\n'])⟩⟩] },
       false) :=
  double_blank_segmentation.1 ⟨['0'], ['x'], false, 1, []⟩ [' '] none rfl
    (by decide) (by decide) (by decide)

/-- C6: heading segmentation.  (1) In `Normal` state, a line with no
timestamp match whose trimmed form is 1-6 `#` followed by whitespace closes
the accumulated point (pushing it when non-blank), starts a new point
seeded with the heading line itself, and leaves the tracked timestamp
unchanged.  (2) `parse("0:01 intro\n## Section Two\nmore text")` yields
exactly `{"0:01","intro"}` and `{"0:01","## Section Two\nmore text"}` — the
following non-heading line appends into the heading's point. -/
theorem heading_segmentation :
    (∀ (st : Parser.PState) (line : List Char) (next? : Option (List Char)),
      st.inCodeBlock = false →
      Parser.firstTsMatch line = none →
      Parser.headingMatch (Parser.trimChars line) = true →
      Parser.stepLine st line next? =
        ({ st with emptyLineCount := 0,
                   currentPoint := line ++ ['\n'],
                   points := if 0 < (Parser.trimChars st.currentPoint).length
                             then st.pushPoint else st.points }, false)) ∧
    Parser.parseSummary "0:01 intro\n## Section Two\nmore text" =
      [⟨"0:01", "intro"⟩, ⟨"0:01", "## Section Two\nmore text"⟩] := by
  constructor
  · intro st line next? hcode hts hhead
    obtain ⟨t', ht⟩ := Parser.headingMatch_head hhead
    have hblank : ¬(Parser.trimChars line = []) := by rw [ht]; simp
    have hf : Parser.isFenceLine line = false := by
      simp [Parser.isFenceLine, ht, List.isPrefixOf]
    simp [Parser.stepLine, hf, hcode, hblank, hts, hhead]
  · decide

namespace Cache

theorem keyMatches_iff_key (r : SummaryRecord) (v s : String) :
    keyMatches r v s = true ↔ r.key = (v, s) := by
  simp [keyMatches, SummaryRecord.key, Prod.ext_iff]

/-- Split a list around a member all of whose key-image is unique. -/
theorem nodup_map_decomp {α β : Type} (f : α → β) {l : List α}
    (h : (l.map f).Nodup) {r : α} (hr : r ∈ l) :
    ∃ a b, l = a ++ r :: b ∧ ∀ x ∈ a ++ b, f x ≠ f r := by
  obtain ⟨a, b, rfl⟩ := List.append_of_mem hr
  refine ⟨a, b, rfl, ?_⟩
  rw [List.map_append, List.map_cons] at h
  rw [List.nodup_append] at h
  obtain ⟨-, hcons, hdisj⟩ := h
  intro x hx hfx
  rcases List.mem_append.1 hx with hxa | hxb
  · exact hdisj (List.mem_map_of_mem f hxa) (by simp [hfx])
  · rw [List.nodup_cons] at hcons
    exact hcons.1 (hfx ▸ List.mem_map_of_mem f hxb)

theorem find?_append_cons {α : Type} (p : α → Bool) (a : List α) (r : α)
    (b : List α) (ha : ∀ x ∈ a, p x = false) (hr : p r = true) :
    (a ++ r :: b).find? p = some r := by
  induction a with
  | nil => simp [List.find?_cons_of_pos _ hr]
  | cons x xs ih =>
    rw [List.cons_append,
      List.find?_cons_of_neg _ (by simp [ha x (by simp)])]
    exact ih (fun y hy => ha y (by simp [hy]))

/-- `find?` success splits the list at the first hit. -/
theorem find?_eq_some_decomp {α : Type} {p : α → Bool} {l : List α} {r : α}
    (h : l.find? p = some r) :
    ∃ a b, l = a ++ r :: b ∧ ∀ x ∈ a, p x = false := by
  induction l with
  | nil => simp [List.find?] at h
  | cons x xs ih =>
    cases hp : p x with
    | true =>
      rw [List.find?_cons_of_pos _ hp] at h
      injection h with hxr
      subst hxr
      exact ⟨[], xs, rfl, by simp⟩
    | false =>
      rw [List.find?_cons_of_neg _ (by simp [hp])] at h
      obtain ⟨a, b, hab, ha⟩ := ih h
      exact ⟨x :: a, b, by rw [hab]; rfl,
        fun y hy => by
          rcases List.mem_cons.1 hy with rfl | hy'
          · exact hp
          · exact ha y hy'⟩

theorem updateFirst_append_cons (vid sty : String) (now : Nat)
    (a : List SummaryRecord) (r : SummaryRecord) (b : List SummaryRecord)
    (ha : ∀ x ∈ a, keyMatches x vid sty = false)
    (hr : keyMatches r vid sty = true) :
    Json.updateFirst (a ++ r :: b) vid sty now =
      a ++ { r with accessed_at := now } :: b := by
  induction a with
  | nil => simp [Json.updateFirst, hr]
  | cons x xs ih =>
    rw [List.cons_append, Json.updateFirst, if_neg (by simp [ha x (by simp)])]
    rw [ih (fun y hy => ha y (by simp [hy]))]
    rfl

/-- A conditional rewrite map is the identity on a list with no matches. -/
theorem map_if_not_matching {α : Type} (u : α → α) (p : α → Bool)
    (l : List α) (hl : ∀ x ∈ l, p x = false) :
    (l.map fun x => if p x = true then u x else x) = l := by
  induction l with
  | nil => rfl
  | cons x xs ih =>
    rw [List.map_cons, if_neg (by simp [hl x (by simp)]),
      ih (fun y hy => hl y (by simp [hy]))]

/-- The `UPDATE ... WHERE` of the SQLite `get`, computed on a decomposition
with the unique matching row in the middle. -/
theorem sql_update_rows (vid sty : String) (now : Nat)
    (a : List SRow) (row : SRow) (b : List SRow)
    (hano : ∀ x ∈ a, keyMatches x.record vid sty = false)
    (hbno : ∀ x ∈ b, keyMatches x.record vid sty = false)
    (hrow : keyMatches row.record vid sty = true) :
    ((a ++ row :: b).map fun r =>
        if keyMatches r.record vid sty then
          { r with record := { r.record with accessed_at := now } }
        else r) =
      a ++ { row with record := { row.record with accessed_at := now } } :: b := by
  rw [List.map_append, List.map_cons, if_pos hrow,
    map_if_not_matching _ _ a hano, map_if_not_matching _ _ b hbno]

/-- C10: `exists` is a pure read on both backends: the step leaves the
store exactly as it was (no `accessedAt` stamping, hence no effect on
recency order), and its boolean is true iff a live record with the key is
present. -/
theorem exists_pure_read (sdb : SqliteDb) (jdb : JsonDb)
    (vid sty : String) (t : Nat) :
    sqlStep sdb (.checkExists vid sty) t =
      (.boolOut (Sql.checkSummaryExists sdb vid sty), sdb) ∧
    (Sql.checkSummaryExists sdb vid sty = true ↔
      ∃ r ∈ sdb.rows, keyMatches r.record vid sty = true) ∧
    jsonStep jdb (.checkExists vid sty) t =
      (.boolOut (Json.checkSummaryExists jdb vid sty), jdb) ∧
    (Json.checkSummaryExists jdb vid sty = true ↔
      ∃ r ∈ jdb.summaries, keyMatches r vid sty = true) := by
  refine ⟨rfl, ?_, rfl, ?_⟩
  · simp [Sql.checkSummaryExists, List.countP_pos_iff]
  · simp [Json.checkSummaryExists, List.any_eq_true]

/-- C7: `get` side effect and frame.  On a hit, both backends restamp
exactly the stored record at the key with `accessed_at = now` — a value at
least the pre-call clock `tPre` — persist that update before returning, and
leave every other record, the row order, all rowids and every other field
unchanged; on a miss the store is returned unchanged. -/
theorem get_effect_and_frame (sdb : SqliteDb) (jdb : JsonDb)
    (vid sty : String) (now tPre : Nat)
    (hs : sqlKeysNodup sdb) (hmono : tPre ≤ now) :
    (∀ r db', Sql.getCachedSummary sdb vid sty now = (some r, db') →
      stampedAtKey (sdb.rows.map SRow.record) (db'.rows.map SRow.record)
        vid sty now ∧
      db'.rows.map SRow.id = sdb.rows.map SRow.id ∧
      db'.nextId = sdb.nextId ∧ tPre ≤ now) ∧
    ((Sql.getCachedSummary sdb vid sty now).1 = none →
      (Sql.getCachedSummary sdb vid sty now).2 = sdb) ∧
    (∀ r db', Json.getCachedSummary jdb vid sty now = (some r, db') →
      stampedAtKey jdb.summaries db'.summaries vid sty now ∧
      r.accessed_at = now ∧ tPre ≤ now) ∧
    ((Json.getCachedSummary jdb vid sty now).1 = none →
      (Json.getCachedSummary jdb vid sty now).2 = jdb) := by
  refine ⟨?_, ?_, ?_, ?_⟩
  · intro r db' h
    unfold Sql.getCachedSummary at h
    cases hf : sdb.rows.find? (fun x => keyMatches x.record vid sty) with
    | none => rw [hf] at h; exact absurd (congrArg Prod.fst h) (by simp)
    | some row =>
      rw [hf] at h
      obtain ⟨hr, hdb⟩ := Prod.mk.injEq _ _ _ _ ▸ h
      have hrow_mem := List.mem_of_find?_eq_some hf
      have hrow_p : keyMatches row.record vid sty = true := by
        simpa using List.find?_some hf
      obtain ⟨a, b, hab, hne⟩ :=
        nodup_map_decomp (fun x => x.record.key)
          (show (sdb.rows.map fun x => x.record.key).Nodup from hs) hrow_mem
      have hano : ∀ x ∈ a, keyMatches x.record vid sty = false := by
        intro x hx
        have hxk := hne x (List.mem_append.2 (Or.inl hx))
        rw [(keyMatches_iff_key row.record vid sty).1 hrow_p] at hxk
        cases hk : keyMatches x.record vid sty
        · rfl
        · exact absurd ((keyMatches_iff_key _ _ _).1 hk) hxk
      have hbno : ∀ x ∈ b, keyMatches x.record vid sty = false := by
        intro x hx
        have hxk := hne x (List.mem_append.2 (Or.inr hx))
        rw [(keyMatches_iff_key row.record vid sty).1 hrow_p] at hxk
        cases hk : keyMatches x.record vid sty
        · rfl
        · exact absurd ((keyMatches_iff_key _ _ _).1 hk) hxk
      have hmap : db'.rows =
          a ++ { row with record := { row.record with accessed_at := now } }
            :: b := by
        rw [← hdb]
        show (sdb.rows.map fun r =>
            if keyMatches r.record vid sty then
              { r with record := { r.record with accessed_at := now } }
            else r) = _
        rw [hab]
        exact sql_update_rows vid sty now a row b hano hbno hrow_p
      refine ⟨⟨row.record, a.map SRow.record, b.map SRow.record,
        by rw [hab]; simp, by rw [hmap]; simp,
        fun x hx => ?_, hrow_p⟩, ?_, ?_, hmono⟩
      · obtain ⟨y, hy, rfl⟩ := List.mem_map.1 hx
        exact hano y hy
      · rw [hmap, hab]; simp
      · rw [← hdb]
  · intro h
    unfold Sql.getCachedSummary at h ⊢
    cases hf : sdb.rows.find? (fun x => keyMatches x.record vid sty) with
    | none => rfl
    | some row => rw [hf] at h; exact absurd h (by simp)
  · intro r db' h
    unfold Json.getCachedSummary at h
    cases hf : jdb.summaries.find? (fun x => keyMatches x vid sty) with
    | none => rw [hf] at h; exact absurd (congrArg Prod.fst h) (by simp)
    | some pre =>
      rw [hf] at h
      obtain ⟨hr, hdb⟩ := Prod.mk.injEq _ _ _ _ ▸ h
      obtain ⟨a, b, hab, hano'⟩ := find?_eq_some_decomp hf
      have hp : keyMatches pre vid sty = true := by
        simpa using List.find?_some hf
      have hracc : r.accessed_at = now := by
        rw [← Option.some.inj hr]
      refine ⟨⟨pre, a, b, hab, ?_, hano', hp⟩, hracc, hmono⟩
      rw [← hdb]
      show Json.updateFirst jdb.summaries vid sty now = _
      rw [hab]
      exact updateFirst_append_cons vid sty now a pre b hano' hp
  · intro h
    unfold Json.getCachedSummary at h ⊢
    cases hf : jdb.summaries.find? (fun x => keyMatches x vid sty) with
    | none => rfl
    | some pre => rw [hf] at h; exact absurd h (by simp)

/-- C8 counterexample: with one record `w` live in the whole-file store, a
read failure during `put` (caught inside `readDatabase`) makes the `put`
rewrite the store from scratch: the result is not the original store and
the old record is gone — not a no-op on the visible record set, although
nothing was raised. -/
theorem put_failure_not_noop_counterexample :
    Json.saveSummaryF ⟨[⟨"w", "u0", "t0", "s0", "sy", 0, 0⟩]⟩
        ⟨"v", "u", "t", "x", "s"⟩ 5 true false ≠
      ⟨[⟨"w", "u0", "t0", "s0", "sy", 0, 0⟩]⟩ ∧
    (⟨"w", "u0", "t0", "s0", "sy", 0, 0⟩ : SummaryRecord) ∉
      (Json.saveSummaryF ⟨[⟨"w", "u0", "t0", "s0", "sy", 0, 0⟩]⟩
        ⟨"v", "u", "t", "x", "s"⟩ 5 true false).summaries := by
  decide

/-- C8 (amended): every persistence-layer failure during `put` is caught
and logged and `put` returns normally, never raising to the caller; when
the failing step is the write itself the operation is a no-op on the
visible record set, but a failure after a successful SQLite insert (the
eviction `COUNT`) leaves the inserted record behind, and a read failure
during the whole-file `put` rewrites the store as though it had been empty.
(The JSON `put` is total by construction — `readDatabase` and
`writeDatabase` catch internally — so only the SQLite path needs the
explicit catch.) -/
theorem put_never_raises_amended :
    (∀ (db : SqliteDb) (data : SummaryData) (now : Nat) (f : Sql.SqlFail),
      (Sql.saveSummaryCaught db data now f).isOk = true) ∧
    (∀ (db : SqliteDb) (data : SummaryData) (now : Nat),
      Sql.saveSummaryCaught db data now .atInsert = .ok db) ∧
    (∀ (db : SqliteDb) (data : SummaryData) (now : Nat),
      Sql.saveSummaryCaught db data now .atCount =
        .ok (Sql.insertOrReplace db data now)) ∧
    (∀ (file : JsonDb) (data : SummaryData) (now : Nat),
      Json.saveSummaryF file data now false true = file) ∧
    (∀ (file : JsonDb) (data : SummaryData) (now : Nat),
      Json.saveSummaryF file data now true false =
        Json.saveSummary emptyJson data now) := by
  refine ⟨?_, fun db data now => rfl, fun db data now => rfl,
    fun file data now => rfl, fun file data now => rfl⟩
  intro db data now f
  unfold Sql.saveSummaryCaught
  rcases h : Sql.saveSummaryAttempt db data now f with ⟨st, _ | _⟩ <;> rfl

theorem ascRow_trans (a b c : SRow) (h1 : Sql.ascRow a b = true)
    (h2 : Sql.ascRow b c = true) : Sql.ascRow a c = true := by
  simp only [Sql.ascRow, decide_eq_true_eq] at h1 h2 ⊢
  rcases h1 with h1 | ⟨h1e, h1i⟩ <;> rcases h2 with h2 | ⟨h2e, h2i⟩
  · exact Or.inl (Nat.lt_trans h1 h2)
  · exact Or.inl (h2e ▸ h1)
  · exact Or.inl (h1e ▸ h2)
  · exact Or.inr ⟨h1e.trans h2e, Nat.le_trans h1i h2i⟩

theorem ascRow_total (a b : SRow) :
    (Sql.ascRow a b || Sql.ascRow b a) = true := by
  simp only [Sql.ascRow, Bool.or_eq_true, decide_eq_true_eq]
  rcases Nat.lt_trichotomy a.record.accessed_at b.record.accessed_at with
    h | h | h
  · exact Or.inl (Or.inl h)
  · rcases Nat.le_total a.id b.id with hi | hi
    · exact Or.inl (Or.inr ⟨h, hi⟩)
    · exact Or.inr (Or.inr ⟨h.symm, hi⟩)
  · exact Or.inr (Or.inl h)

theorem descRow_trans (a b c : SRow) (h1 : Sql.descRow a b = true)
    (h2 : Sql.descRow b c = true) : Sql.descRow a c = true := by
  simp only [Sql.descRow, decide_eq_true_eq] at h1 h2 ⊢
  rcases h1 with h1 | ⟨h1e, h1i⟩ <;> rcases h2 with h2 | ⟨h2e, h2i⟩
  · exact Or.inl (Nat.lt_trans h2 h1)
  · exact Or.inl (h2e ▸ h1)
  · exact Or.inl (h1e ▸ h2)
  · exact Or.inr ⟨h2e.trans h1e, Nat.le_trans h1i h2i⟩

theorem descRow_total (a b : SRow) :
    (Sql.descRow a b || Sql.descRow b a) = true := by
  simp only [Sql.descRow, Bool.or_eq_true, decide_eq_true_eq]
  rcases Nat.lt_trichotomy b.record.accessed_at a.record.accessed_at with
    h | h | h
  · exact Or.inl (Or.inl h)
  · rcases Nat.le_total a.id b.id with hi | hi
    · exact Or.inl (Or.inr ⟨h, hi⟩)
    · exact Or.inr (Or.inr ⟨h.symm, hi⟩)
  · exact Or.inr (Or.inl h)

theorem ascRec_trans (a b c : SummaryRecord) (h1 : Json.ascRec a b = true)
    (h2 : Json.ascRec b c = true) : Json.ascRec a c = true := by
  simp only [Json.ascRec, decide_eq_true_eq] at h1 h2 ⊢
  exact Nat.le_trans h1 h2

theorem ascRec_total (a b : SummaryRecord) :
    (Json.ascRec a b || Json.ascRec b a) = true := by
  simp only [Json.ascRec, Bool.or_eq_true, decide_eq_true_eq]
  exact Nat.le_total a.accessed_at b.accessed_at

theorem descRec_trans (a b c : SummaryRecord) (h1 : Json.descRec a b = true)
    (h2 : Json.descRec b c = true) : Json.descRec a c = true := by
  simp only [Json.descRec, decide_eq_true_eq] at h1 h2 ⊢
  exact Nat.le_trans h2 h1

theorem descRec_total (a b : SummaryRecord) :
    (Json.descRec a b || Json.descRec b a) = true := by
  simp only [Json.descRec, Bool.or_eq_true, decide_eq_true_eq]
  exact Nat.le_total b.accessed_at a.accessed_at

/-- Two permuted lists, each strictly sorted along a numeric key, are
equal. -/
theorem eq_of_perm_of_pairwise_lt {α : Type} (f : α → Nat) {l m : List α}
    (h : l.Perm m) (hl : l.Pairwise (fun a b => f a < f b))
    (hm : m.Pairwise (fun a b => f a < f b)) : l = m := by
  haveI : IsAntisymm α (fun a b => f a < f b) :=
    ⟨fun a b h1 h2 => absurd (Nat.lt_trans h1 h2) (Nat.lt_irrefl _)⟩
  exact List.eq_of_perm_of_sorted h hl hm

/-- A weakly sorted list with pairwise-distinct keys is strictly sorted. -/
theorem pairwise_lt_of_le_nodup {α : Type} (f : α → Nat) {l : List α}
    (hp : l.Pairwise (fun a b => f a ≤ f b)) (hn : (l.map f).Nodup) :
    l.Pairwise (fun a b => f a < f b) := by
  have hne : l.Pairwise (fun a b => f a ≠ f b) := List.pairwise_map.1 hn
  exact (hp.and hne).imp (fun h => Nat.lt_of_le_of_ne h.1 h.2)

/-- `insertOrReplace` on a store that does not hold the key: plain append
of a freshly created and stamped row. -/
theorem insertOrReplace_new (sdb : SqliteDb) (d : SummaryData) (now : Nat)
    (hno : ∀ r ∈ sdb.rows, keyMatches r.record d.videoId d.style = false) :
    Sql.insertOrReplace sdb d now =
      ⟨sdb.rows ++ [⟨sdb.nextId, d.toRecord now now⟩], sdb.nextId + 1⟩ := by
  unfold Sql.insertOrReplace Sql.createdAtQuery
  rw [List.find?_eq_none.2 (fun x hx => by simp [hno x hx]),
    List.filter_eq_self.2 (fun x hx => by simp [hno x hx])]

/-- `enforceLimit` at or below capacity is the identity. -/
theorem enforceLimit_le (db : SqliteDb) (h : db.rows.length ≤ 100) :
    Sql.enforceLimit db = db := by
  unfold Sql.enforceLimit
  rw [if_neg (by omega)]

/-- `enforceLimit` on a 101-row table with distinct rowids: exactly the
head of the ascending `(accessed_at, id)` sort is deleted, and the
survivors are (a permutation of) its tail, every member of which the
deleted row precedes in the sort order. -/
theorem enforceLimit_overflow (db : SqliteDb) (hlen : db.rows.length = 101)
    (hids : (db.rows.map SRow.id).Nodup) :
    ∃ v stail, db.rows.mergeSort Sql.ascRow = v :: stail ∧
      (Sql.enforceLimit db).rows.Perm stail ∧
      (∀ x ∈ stail, Sql.ascRow v x = true) ∧ v ∈ db.rows := by
  have hperm : (db.rows.mergeSort Sql.ascRow).Perm db.rows :=
    List.mergeSort_perm db.rows Sql.ascRow
  have hsortlen : (db.rows.mergeSort Sql.ascRow).length = 101 :=
    hperm.length_eq.trans hlen
  obtain ⟨v, stail, hvs⟩ : ∃ v stail,
      db.rows.mergeSort Sql.ascRow = v :: stail := by
    cases hms : db.rows.mergeSort Sql.ascRow with
    | nil => rw [hms] at hsortlen; simp at hsortlen
    | cons v stail => exact ⟨v, stail, rfl⟩
  have hpw : (db.rows.mergeSort Sql.ascRow).Pairwise
      (fun a b => Sql.ascRow a b = true) :=
    List.sorted_mergeSort ascRow_trans ascRow_total db.rows
  rw [hvs] at hpw
  have hmin : ∀ x ∈ stail, Sql.ascRow v x = true :=
    (List.pairwise_cons.1 hpw).1
  have hvmem : v ∈ db.rows := hperm.mem_iff.1 (hvs ▸ List.mem_cons_self v stail)
  refine ⟨v, stail, hvs, ?_, hmin, hvmem⟩
  unfold Sql.enforceLimit
  rw [if_pos (by omega)]
  rw [hlen, hvs]
  show (db.rows.filter fun r =>
      !(((v :: stail).take (101 - 100)).map SRow.id).contains r.id).Perm stail
  have htidsnd : ((v :: stail).map SRow.id).Nodup := by
    rw [← hvs]
    exact ((List.mergeSort_perm db.rows Sql.ascRow).map SRow.id).nodup_iff.2 hids
  have hfperm := List.Perm.filter
    (fun r => !(((v :: stail).take (101 - 100)).map SRow.id).contains r.id)
    (hvs ▸ hperm)
  refine hfperm.symm.trans ?_
  have hvfalse : (!(((v :: stail).take (101 - 100)).map SRow.id).contains
      v.id) = false := by
    simp [List.take, List.contains]
  have htailtrue : ∀ x ∈ stail,
      (!(((v :: stail).take (101 - 100)).map SRow.id).contains x.id) = true := by
    intro x hx
    have hne : x.id ≠ v.id := by
      rw [List.map_cons, List.nodup_cons] at htidsnd
      intro hcon
      exact htidsnd.1 (hcon ▸ List.mem_map_of_mem SRow.id hx)
    simp [List.take, List.contains, hne]
  rw [List.filter_cons_of_neg (by simp [hvfalse]),
    List.filter_eq_self.2 htailtrue]

theorem ascRow_le {a b : SRow} (h : Sql.ascRow a b = true) :
    a.record.accessed_at ≤ b.record.accessed_at := by
  simp only [Sql.ascRow, decide_eq_true_eq] at h
  rcases h with h | ⟨h, -⟩
  · exact Nat.le_of_lt h
  · exact Nat.le_of_eq h

/-- `findIndex` missing the key: `replaceFirst` is `none` iff no record
matches. -/
theorem replaceFirst_none_iff (l : List SummaryRecord) (v s : String)
    (nr : SummaryRecord) :
    Json.replaceFirst l v s nr = none ↔
      ∀ x ∈ l, keyMatches x v s = false := by
  induction l with
  | nil => simp [Json.replaceFirst]
  | cons r t ih =>
    unfold Json.replaceFirst
    by_cases hr : keyMatches r v s = true
    · simp [hr]
    · rw [if_neg hr]
      simp only [Option.map_eq_none', ih, List.mem_cons]
      constructor
      · intro h x hx
        rcases hx with rfl | hx
        · exact Bool.eq_false_iff.2 hr
        · exact h x hx
      · intro h x hx
        exact h x (Or.inr hx)

/-- `findIndex` hitting the key: `replaceFirst` replaces the first matching
record in place, carrying over its `created_at`. -/
theorem replaceFirst_some_decomp {l l' : List SummaryRecord} {v s : String}
    {nr : SummaryRecord}
    (h : Json.replaceFirst l v s nr = some l') :
    ∃ a r b, l = a ++ r :: b ∧
      l' = a ++ { nr with created_at := r.created_at } :: b ∧
      (∀ x ∈ a, keyMatches x v s = false) ∧ keyMatches r v s = true := by
  induction l generalizing l' with
  | nil => simp [Json.replaceFirst] at h
  | cons r t ih =>
    unfold Json.replaceFirst at h
    by_cases hr : keyMatches r v s = true
    · rw [if_pos hr] at h
      exact ⟨[], r, t, rfl, by simp [← Option.some.inj h], by simp, hr⟩
    · rw [if_neg hr] at h
      rcases Option.map_eq_some'.1 h with ⟨t', ht', rfl⟩
      obtain ⟨a, rr, b, hab, hl', ha, hrr⟩ := ih ht'
      refine ⟨r :: a, rr, b, by rw [hab]; rfl, by rw [hl']; rfl, ?_, hrr⟩
      intro x hx
      rcases List.mem_cons.1 hx with rfl | hx
      · exact Bool.eq_false_iff.2 hr
      · exact ha x hx

/-- `pushAndEvict` below the limit: a plain append. -/
theorem pushAndEvict_le (l : List SummaryRecord) (nr : SummaryRecord)
    (h : (l ++ [nr]).length ≤ 100) :
    Json.pushAndEvict l nr = l ++ [nr] := by
  unfold Json.pushAndEvict
  rw [if_neg (by omega)]

/-- `pushAndEvict` overflowing at 101 records: the result is exactly the
tail of the ascending `accessed_at` sort, i.e. the head of that sort is the
one record deleted. -/
theorem pushAndEvict_overflow (l : List SummaryRecord) (nr : SummaryRecord)
    (hlen : (l ++ [nr]).length = 101) :
    ∃ w wtail, (l ++ [nr]).mergeSort Json.ascRec = w :: wtail ∧
      Json.pushAndEvict l nr = wtail ∧
      (∀ x ∈ wtail, Json.ascRec w x = true) ∧
      (w :: wtail).Perm (l ++ [nr]) := by
  have hperm : ((l ++ [nr]).mergeSort Json.ascRec).Perm (l ++ [nr]) :=
    List.mergeSort_perm (l ++ [nr]) Json.ascRec
  have hsortlen : ((l ++ [nr]).mergeSort Json.ascRec).length = 101 :=
    hperm.length_eq.trans hlen
  obtain ⟨w, wtail, hws⟩ : ∃ w wtail,
      (l ++ [nr]).mergeSort Json.ascRec = w :: wtail := by
    cases hms : (l ++ [nr]).mergeSort Json.ascRec with
    | nil => rw [hms] at hsortlen; simp at hsortlen
    | cons w wtail => exact ⟨w, wtail, rfl⟩
  have hpw : ((l ++ [nr]).mergeSort Json.ascRec).Pairwise
      (fun a b => Json.ascRec a b = true) :=
    List.sorted_mergeSort ascRec_trans ascRec_total (l ++ [nr])
  rw [hws] at hpw
  refine ⟨w, wtail, hws, ?_, (List.pairwise_cons.1 hpw).1, hws ▸ hperm⟩
  unfold Json.pushAndEvict
  rw [if_pos (by omega), hlen, hws]
  rfl

/-- In a sorted cons whose members are one strictly freshest record plus
strictly older ones, the head is not the freshest record (SQLite rows). -/
theorem sql_sorted_head_not_new (v newRow : SRow) (stail old : List SRow)
    (hperm : (v :: stail).Perm (old ++ [newRow]))
    (hmin : ∀ x ∈ stail, Sql.ascRow v x = true)
    (hfresh : ∀ x ∈ old,
      x.record.accessed_at < newRow.record.accessed_at)
    (hne : old ≠ []) : v ≠ newRow := by
  intro hv
  subst hv
  obtain ⟨u, hu⟩ := List.exists_mem_of_ne_nil old hne
  have hu2 : u ∈ v :: stail :=
    hperm.mem_iff.2 (List.mem_append_left _ hu)
  rcases List.mem_cons.1 hu2 with rfl | hu3
  · exact absurd (hfresh u hu) (Nat.lt_irrefl _)
  · exact absurd (Nat.lt_of_le_of_lt (ascRow_le (hmin u hu3)) (hfresh u hu))
      (Nat.lt_irrefl _)

/-- JSON version of `sql_sorted_head_not_new`. -/
theorem json_sorted_head_not_new (w newRec : SummaryRecord)
    (wtail old : List SummaryRecord)
    (hperm : (w :: wtail).Perm (old ++ [newRec]))
    (hmin : ∀ x ∈ wtail, Json.ascRec w x = true)
    (hfresh : ∀ x ∈ old, x.accessed_at < newRec.accessed_at)
    (hne : old ≠ []) : w ≠ newRec := by
  intro hv
  subst hv
  obtain ⟨u, hu⟩ := List.exists_mem_of_ne_nil old hne
  have hu2 : u ∈ w :: wtail :=
    hperm.mem_iff.2 (List.mem_append_left _ hu)
  rcases List.mem_cons.1 hu2 with rfl | hu3
  · exact absurd (hfresh u hu) (Nat.lt_irrefl _)
  · have hle : w.accessed_at ≤ u.accessed_at := by
      have := hmin u hu3
      simpa [Json.ascRec] using this
    exact absurd (Nat.lt_of_le_of_lt hle (hfresh u hu)) (Nat.lt_irrefl _)

/-- Whatever `enforceLimit` does, the surviving rows are a sublist of the
input rows and the counter is unchanged. -/
theorem enforceLimit_sublist (db : SqliteDb) :
    (Sql.enforceLimit db).rows.Sublist db.rows ∧
      (Sql.enforceLimit db).nextId = db.nextId := by
  unfold Sql.enforceLimit
  by_cases h : db.rows.length > 100
  · rw [if_pos h]
    exact ⟨List.filter_sublist _, rfl⟩
  · rw [if_neg h]
    exact ⟨List.Sublist.refl _, rfl⟩

/-- The shape of `INSERT OR REPLACE` (definitional restatement used to
rewrite). -/
theorem insertOrReplace_rows (db : SqliteDb) (d : SummaryData) (now : Nat) :
    (Sql.insertOrReplace db d now).rows =
      db.rows.filter (fun r => !(keyMatches r.record d.videoId d.style)) ++
        [⟨db.nextId, d.toRecord (Sql.createdAtQuery db d now) now⟩] ∧
    (Sql.insertOrReplace db d now).nextId = db.nextId + 1 :=
  ⟨rfl, rfl⟩

/-- One `put` keeps the SQLite table at or below capacity and preserves the
rowid invariants. -/
theorem sql_save_inv (db : SqliteDb) (d : SummaryData) (now : Nat)
    (hlen : db.rows.length ≤ 100) (hb : sqlIdsBound db)
    (hn : sqlIdsNodup db) :
    (Sql.saveSummary db d now).rows.length ≤ 100 ∧
    sqlIdsBound (Sql.saveSummary db d now) ∧
    sqlIdsNodup (Sql.saveSummary db d now) := by
  obtain ⟨hF, hnext⟩ := insertOrReplace_rows db d now
  have hlenF := List.length_filter_le
    (fun r => !(keyMatches r.record d.videoId d.style)) db.rows
  have hlen1 : (Sql.insertOrReplace db d now).rows.length ≤ 101 := by
    rw [hF, List.length_append, List.length_cons, List.length_nil]
    omega
  have hmemF : ∀ r ∈ (Sql.insertOrReplace db d now).rows,
      r ∈ db.rows ∨ r.id = db.nextId := by
    intro r hr
    rw [hF] at hr
    rcases List.mem_append.1 hr with hr | hr
    · exact Or.inl (List.mem_of_mem_filter hr)
    · simp at hr
      exact Or.inr (by rw [hr])
  have hb1 : sqlIdsBound (Sql.insertOrReplace db d now) := by
    intro r hr
    rw [hnext]
    rcases hmemF r hr with hr' | hr'
    · exact Nat.lt_succ_of_lt (hb r hr')
    · rw [hr']
      exact Nat.lt_succ_self _
  have hn1 : sqlIdsNodup (Sql.insertOrReplace db d now) := by
    show ((Sql.insertOrReplace db d now).rows.map SRow.id).Nodup
    rw [hF, List.map_append, List.map_cons, List.map_nil]
    rw [List.nodup_append]
    refine ⟨?_, by simp, ?_⟩
    · exact (hn.sublist ((List.filter_sublist _).map SRow.id))
    · intro x hx
      obtain ⟨y, hy, rfl⟩ := List.mem_map.1 hx
      have := hb y (List.mem_of_mem_filter hy)
      simp only [List.mem_cons, List.not_mem_nil, or_false]
      omega
  have hsub := enforceLimit_sublist (Sql.insertOrReplace db d now)
  have hsave : Sql.saveSummary db d now =
      Sql.enforceLimit (Sql.insertOrReplace db d now) := rfl
  refine ⟨?_, ?_, ?_⟩
  · rw [hsave]
    by_cases h100 : (Sql.insertOrReplace db d now).rows.length ≤ 100
    · rw [enforceLimit_le _ h100]
      exact h100
    · have h101 : (Sql.insertOrReplace db d now).rows.length = 101 := by omega
      obtain ⟨v, stail, hvs, hperm', hmin, hvmem⟩ :=
        enforceLimit_overflow _ h101 hn1
      have hsl : (v :: stail).length = 101 := by
        rw [← hvs]
        exact (List.mergeSort_perm _ _).length_eq.trans h101
      rw [hperm'.length_eq]
      simp at hsl
      omega
  · rw [hsave]
    intro r hr
    rw [(enforceLimit_sublist _).2]
    exact hb1 r ((enforceLimit_sublist _).1.subset hr)
  · rw [hsave]
    exact hn1.sublist ((enforceLimit_sublist _).1.map SRow.id)

/-- One `put` keeps the JSON store at or below capacity. -/
theorem json_save_le (db : JsonDb) (d : SummaryData) (now : Nat)
    (h : db.summaries.length ≤ 100) :
    (Json.saveSummary db d now).summaries.length ≤ 100 := by
  have hsave : Json.saveSummary db d now =
      (match Json.replaceFirst db.summaries d.videoId d.style
          (d.toRecord now now) with
       | some l => ⟨l⟩
       | none => ⟨Json.pushAndEvict db.summaries (d.toRecord now now)⟩) := rfl
  rw [hsave]
  cases hrf : Json.replaceFirst db.summaries d.videoId d.style
      (d.toRecord now now) with
  | some l' =>
    obtain ⟨a, r, b, hab, hl', -, -⟩ := replaceFirst_some_decomp hrf
    have : l'.length = db.summaries.length := by
      rw [hab, hl']
      simp
    simpa [this] using h
  | none =>
    show (Json.pushAndEvict db.summaries (d.toRecord now now)).length ≤ 100
    by_cases hp : (db.summaries ++ [d.toRecord now now]).length ≤ 100
    · rw [pushAndEvict_le _ _ hp]
      exact hp
    · have h101 : (db.summaries ++ [d.toRecord now now]).length = 101 := by
        rw [List.length_append] at hp ⊢
        simp at hp ⊢
        omega
      obtain ⟨w, wtail, hws, hpe, -, hperm⟩ :=
        pushAndEvict_overflow _ _ h101
      rw [hpe]
      have : (w :: wtail).length = 101 := hperm.length_eq.trans h101
      simp at this
      omega

theorem foldPutsSql_inv (ops : List (SummaryData × Nat)) (db : SqliteDb)
    (h : db.rows.length ≤ 100 ∧ sqlIdsBound db ∧ sqlIdsNodup db) :
    (ops.foldl (fun db p => Sql.saveSummary db p.1 p.2) db).rows.length ≤ 100 ∧
    sqlIdsBound (ops.foldl (fun db p => Sql.saveSummary db p.1 p.2) db) ∧
    sqlIdsNodup (ops.foldl (fun db p => Sql.saveSummary db p.1 p.2) db) := by
  induction ops generalizing db with
  | nil => exact h
  | cons p rest ih =>
    exact ih (Sql.saveSummary db p.1 p.2)
      (sql_save_inv db p.1 p.2 h.1 h.2.1 h.2.2)

theorem foldPutsJson_le (ops : List (SummaryData × Nat)) (db : JsonDb)
    (h : db.summaries.length ≤ 100) :
    (ops.foldl (fun db p =>
      Json.saveSummary db p.1 p.2) db).summaries.length ≤ 100 := by
  induction ops generalizing db with
  | nil => exact h
  | cons p rest ih =>
    exact ih (Json.saveSummary db p.1 p.2) (json_save_le db p.1 p.2 h)

/-- A filter whose only possible hit is `x`, occurring exactly once, is
`[x]`. -/
theorem filter_eq_singleton_of_count {α : Type} [DecidableEq α]
    {p : α → Bool} {l : List α} {x : α} (hp : p x = true)
    (hall : ∀ y ∈ l, p y = true → y = x) (hcount : l.count x = 1) :
    l.filter p = [x] := by
  induction l with
  | nil => simp at hcount
  | cons a t ih =>
    by_cases hax : a = x
    · subst hax
      rw [List.count_cons_self] at hcount
      have hnot : a ∉ t := List.count_eq_zero.1 (by omega)
      rw [List.filter_cons_of_pos hp]
      have : t.filter p = [] := by
        rw [List.filter_eq_nil_iff]
        intro y hy hpy
        exact hnot ((hall y (List.mem_cons_of_mem a hy) hpy) ▸ hy)
      rw [this]
    · have hpa : p a = false := by
        cases hpaa : p a
        · rfl
        · exact absurd (hall a (List.mem_cons_self a t) hpaa) hax
      rw [List.filter_cons_of_neg (by simp [hpa])]
      refine ih (fun y hy hpy => hall y (List.mem_cons_of_mem a hy) hpy) ?_
      rw [List.count_cons_of_ne (fun h => hax h.symm)] at hcount
      exact hcount

/-- A singleton filter pins down `find?`. -/
theorem find?_of_filter_singleton {α : Type} {p : α → Bool} {l : List α}
    {x : α} (h : l.filter p = [x]) : l.find? p = some x := by
  induction l with
  | nil => simp at h
  | cons a t ih =>
    cases hpa : p a with
    | true =>
      rw [List.filter_cons_of_pos hpa] at h
      injection h with h1 h2
      rw [List.find?_cons_of_pos _ hpa, h1]
    | false =>
      rw [List.filter_cons_of_neg (by simp [hpa])] at h
      rw [List.find?_cons_of_neg _ (by simp [hpa])]
      exact ih h

/-- After a `put`, the SQLite table holds exactly one row at the key: the
written record, with `accessed_at = now` and `created_at` given by the
COALESCE subquery. -/
theorem sql_save_key_filter (db : SqliteDb) (d : SummaryData) (now : Nat)
    (hlen : db.rows.length ≤ 100) (hb : sqlIdsBound db) (hn : sqlIdsNodup db)
    (hfresh : sqlFresh db now) :
    ((Sql.saveSummary db d now).rows.filter
        (fun r => keyMatches r.record d.videoId d.style)).map SRow.record =
      [d.toRecord (Sql.createdAtQuery db d now) now] := by
  obtain ⟨hF, hnext⟩ := insertOrReplace_rows db d now
  have hnewmatch : keyMatches
      (⟨db.nextId, d.toRecord (Sql.createdAtQuery db d now) now⟩ : SRow).record
      d.videoId d.style = true := by
    simp [keyMatches, SummaryData.toRecord]
  have hfilter1 : (Sql.insertOrReplace db d now).rows.filter
      (fun r => keyMatches r.record d.videoId d.style) =
      [⟨db.nextId, d.toRecord (Sql.createdAtQuery db d now) now⟩] := by
    rw [hF, List.filter_append, List.filter_filter]
    have hzero : db.rows.filter (fun a =>
        keyMatches a.record d.videoId d.style &&
        !keyMatches a.record d.videoId d.style) = [] := by
      rw [List.filter_eq_nil_iff]
      intro y hy
      cases h : keyMatches y.record d.videoId d.style <;> simp [h]
    rw [hzero]
    simp [hnewmatch]
  have hsave : Sql.saveSummary db d now =
      Sql.enforceLimit (Sql.insertOrReplace db d now) := rfl
  rw [hsave]
  by_cases h100 : (Sql.insertOrReplace db d now).rows.length ≤ 100
  · rw [enforceLimit_le _ h100, hfilter1]
    rfl
  · have hlenF := List.length_filter_le
      (fun r => !(keyMatches r.record d.videoId d.style)) db.rows
    have hlen1 : (Sql.insertOrReplace db d now).rows.length ≤ 101 := by
      rw [hF, List.length_append, List.length_cons, List.length_nil]
      omega
    have h101 : (Sql.insertOrReplace db d now).rows.length = 101 := by omega
    have hn1 : sqlIdsNodup (Sql.insertOrReplace db d now) := by
      show ((Sql.insertOrReplace db d now).rows.map SRow.id).Nodup
      rw [hF, List.map_append, List.map_cons, List.map_nil,
        List.nodup_append]
      refine ⟨hn.sublist ((List.filter_sublist _).map SRow.id), by simp, ?_⟩
      intro x hx
      obtain ⟨y, hy, rfl⟩ := List.mem_map.1 hx
      have := hb y (List.mem_of_mem_filter hy)
      simp only [List.mem_cons, List.not_mem_nil, or_false]
      omega
    obtain ⟨v, stail, hvs, hperm', hmin, hvmem⟩ :=
      enforceLimit_overflow _ h101 hn1
    have hsortperm : (v :: stail).Perm (Sql.insertOrReplace db d now).rows :=
      hvs ▸ List.mergeSort_perm _ _
    have hFne : db.rows.filter
        (fun r => !(keyMatches r.record d.videoId d.style)) ≠ [] := by
      intro hnil
      rw [hF, hnil] at h101
      simp at h101
    have hveq : v ≠ ⟨db.nextId, d.toRecord (Sql.createdAtQuery db d now) now⟩ := by
      refine sql_sorted_head_not_new v _ stail
        (db.rows.filter (fun r => !(keyMatches r.record d.videoId d.style)))
        (by rw [← hF]; exact hsortperm) hmin ?_ hFne
      intro x hx
      exact hfresh x (List.mem_of_mem_filter hx)
    have hnewnotF : (⟨db.nextId,
        d.toRecord (Sql.createdAtQuery db d now) now⟩ : SRow) ∉
        db.rows.filter (fun r => !(keyMatches r.record d.videoId d.style)) := by
      intro hmem
      have := (List.mem_filter.1 hmem).2
      rw [hnewmatch] at this
      simp at this
    have hcount1 : (Sql.insertOrReplace db d now).rows.count
        (⟨db.nextId, d.toRecord (Sql.createdAtQuery db d now) now⟩ : SRow)
        = 1 := by
      rw [hF, List.count_append]
      rw [List.count_eq_zero.2 hnewnotF]
      simp
    have hcount_surv : (Sql.enforceLimit
        (Sql.insertOrReplace db d now)).rows.count
        (⟨db.nextId, d.toRecord (Sql.createdAtQuery db d now) now⟩ : SRow)
        = 1 := by
      rw [hperm'.count_eq]
      have hcv : (v :: stail).count
          (⟨db.nextId, d.toRecord (Sql.createdAtQuery db d now) now⟩ : SRow)
          = 1 := hsortperm.count_eq _ ▸ hcount1
      rw [List.count_cons_of_ne (fun h => hveq h.symm)] at hcv
      exact hcv
    have hall : ∀ y ∈ (Sql.enforceLimit (Sql.insertOrReplace db d now)).rows,
        keyMatches y.record d.videoId d.style = true →
        y = ⟨db.nextId, d.toRecord (Sql.createdAtQuery db d now) now⟩ := by
      intro y hy hmy
      have hy1 : y ∈ (Sql.insertOrReplace db d now).rows :=
        (enforceLimit_sublist _).1.subset hy
      have hymem : y ∈ (Sql.insertOrReplace db d now).rows.filter
          (fun r => keyMatches r.record d.videoId d.style) :=
        List.mem_filter.2 ⟨hy1, hmy⟩
      rw [hfilter1] at hymem
      simpa using hymem
    rw [filter_eq_singleton_of_count
      (p := fun r => keyMatches r.record d.videoId d.style) hnewmatch hall
      hcount_surv]
    rfl

/-- After a `put`, the JSON store holds exactly one record at the key: the
written record, with `accessed_at = now` and `created_at` carried from the
first pre-existing match (or `now`). -/
theorem json_save_key_filter (db : JsonDb) (d : SummaryData) (now : Nat)
    (hlen : db.summaries.length ≤ 100) (hk : jsonKeysNodup db)
    (hfresh : jsonFresh db now) :
    (Json.saveSummary db d now).summaries.filter
        (fun r => keyMatches r d.videoId d.style) =
      [d.toRecord (Json.createdAtOf db d now) now] := by
  have hnewmatch : ∀ c, keyMatches (d.toRecord c now) d.videoId d.style
      = true := by
    intro c
    simp [keyMatches, SummaryData.toRecord]
  have hsave : Json.saveSummary db d now =
      (match Json.replaceFirst db.summaries d.videoId d.style
          (d.toRecord now now) with
       | some l => (⟨l⟩ : JsonDb)
       | none => ⟨Json.pushAndEvict db.summaries (d.toRecord now now)⟩) := rfl
  rw [hsave]
  cases hrf : Json.replaceFirst db.summaries d.videoId d.style
      (d.toRecord now now) with
  | some l' =>
    obtain ⟨a, r, b, hab, hl', hano, hr⟩ := replaceFirst_some_decomp hrf
    have hfind : db.summaries.find?
        (fun x => keyMatches x d.videoId d.style) = some r := by
      rw [hab]
      exact find?_append_cons _ a r b hano hr
    have hcq : Json.createdAtOf db d now = r.created_at := by
      unfold Json.createdAtOf
      rw [hfind]
    have hbno : ∀ x ∈ b, keyMatches x d.videoId d.style = false := by
      intro x hx
      have hkk : (db.summaries.map SummaryRecord.key).Nodup := hk
      rw [hab, List.map_append, List.map_cons] at hkk
      rw [List.nodup_append] at hkk
      have hxk : x.key ≠ r.key := by
        obtain ⟨-, hcons, -⟩ := hkk
        rw [List.nodup_cons] at hcons
        intro hcon
        exact hcons.1 (hcon ▸ List.mem_map_of_mem SummaryRecord.key hx)
      rw [(keyMatches_iff_key r d.videoId d.style).1 hr] at hxk
      cases hkx : keyMatches x d.videoId d.style
      · rfl
      · exact absurd ((keyMatches_iff_key _ _ _).1 hkx) hxk
    show l'.filter (fun r => keyMatches r d.videoId d.style) = _
    rw [hl', List.filter_append,
      List.filter_eq_nil_iff.2 (fun y hy => by simp [hano y hy]),
      List.filter_cons_of_pos (by simpa using hnewmatch r.created_at),
      List.filter_eq_nil_iff.2 (fun y hy => by simp [hbno y hy]), hcq]
    rfl
  | none =>
    have hnokey : ∀ x ∈ db.summaries, keyMatches x d.videoId d.style = false :=
      (replaceFirst_none_iff _ _ _ _).1 hrf
    have hcq : Json.createdAtOf db d now = now := by
      unfold Json.createdAtOf
      rw [List.find?_eq_none.2 (fun x hx => by simp [hnokey x hx])]
    rw [hcq]
    show (Json.pushAndEvict db.summaries (d.toRecord now now)).filter
        (fun r => keyMatches r d.videoId d.style) = [d.toRecord now now]
    have hnewnot : d.toRecord now now ∉ db.summaries := by
      intro hmem
      have := hnokey _ hmem
      rw [hnewmatch now] at this
      exact absurd this (by simp)
    have hcount0 : (db.summaries ++ [d.toRecord now now]).count
        (d.toRecord now now) = 1 := by
      rw [List.count_append, List.count_eq_zero.2 hnewnot]
      simp
    have hall0 : ∀ y ∈ db.summaries ++ [d.toRecord now now],
        keyMatches y d.videoId d.style = true → y = d.toRecord now now := by
      intro y hy hmy
      rcases List.mem_append.1 hy with hy' | hy'
      · rw [hnokey y hy'] at hmy
        exact absurd hmy (by simp)
      · simpa using hy'
    by_cases hp : (db.summaries ++ [d.toRecord now now]).length ≤ 100
    · rw [pushAndEvict_le _ _ hp]
      exact filter_eq_singleton_of_count
        (p := fun r => keyMatches r d.videoId d.style) (hnewmatch now)
        hall0 hcount0
    · have h101 : (db.summaries ++ [d.toRecord now now]).length = 101 := by
        rw [List.length_append] at hp ⊢
        simp at hp ⊢
        omega
      obtain ⟨w, wtail, hws, hpe, hmin, hperm⟩ :=
        pushAndEvict_overflow _ _ h101
      rw [hpe]
      have hdbne : db.summaries ≠ [] := by
        intro hnil
        rw [hnil] at h101
        simp at h101
      have hwnew : w ≠ d.toRecord now now :=
        json_sorted_head_not_new w _ wtail db.summaries hperm hmin
          (fun x hx => hfresh x hx) hdbne
      have hcountw : wtail.count (d.toRecord now now) = 1 := by
        have := hperm.count_eq (d.toRecord now now) ▸ hcount0
        rw [List.count_cons_of_ne (fun h => hwnew h.symm)] at this
        exact this
      refine filter_eq_singleton_of_count
        (p := fun r => keyMatches r d.videoId d.style) (hnewmatch now)
        ?_ hcountw
      intro y hy hmy
      exact hall0 y (hperm.subset (List.mem_cons_of_mem w hy)) hmy

/-- One `put` preserves the JSON store invariants: capacity, key
uniqueness, distinct stamps, and staleness below any later clock value. -/
theorem json_save_inv (db : JsonDb) (d : SummaryData) (now t' : Nat)
    (hlen : db.summaries.length ≤ 100) (hk : jsonKeysNodup db)
    (ha : jsonAccNodup db) (hfresh : jsonFresh db now) (ht : now < t') :
    (Json.saveSummary db d now).summaries.length ≤ 100 ∧
    jsonKeysNodup (Json.saveSummary db d now) ∧
    jsonAccNodup (Json.saveSummary db d now) ∧
    jsonFresh (Json.saveSummary db d now) t' := by
  refine ⟨json_save_le db d now hlen, ?_⟩
  have hsave : Json.saveSummary db d now =
      (match Json.replaceFirst db.summaries d.videoId d.style
          (d.toRecord now now) with
       | some l => (⟨l⟩ : JsonDb)
       | none => ⟨Json.pushAndEvict db.summaries (d.toRecord now now)⟩) := rfl
  rw [hsave]
  cases hrf : Json.replaceFirst db.summaries d.videoId d.style
      (d.toRecord now now) with
  | some l' =>
    obtain ⟨a, r, b, hab, hl', hano, hr⟩ := replaceFirst_some_decomp hrf
    have hkeyeq : ({ d.toRecord now now with
        created_at := r.created_at } : SummaryRecord).key = r.key := by
      rw [(keyMatches_iff_key r d.videoId d.style).1 hr]
      rfl
    refine ⟨?_, ?_, ?_⟩
    · show (l'.map SummaryRecord.key).Nodup
      rw [hl', List.map_append, List.map_cons, hkeyeq]
      have : (db.summaries.map SummaryRecord.key).Nodup := hk
      rw [hab, List.map_append, List.map_cons] at this
      exact this
    · show (l'.map SummaryRecord.accessed_at).Nodup
      rw [hl', List.map_append, List.map_cons]
      have horig : (db.summaries.map SummaryRecord.accessed_at).Nodup := ha
      rw [hab, List.map_append, List.map_cons] at horig
      rw [List.nodup_middle] at horig ⊢
      rw [List.nodup_cons] at horig ⊢
      refine ⟨?_, horig.2⟩
      intro hmem
      rw [← List.map_append] at hmem
      obtain ⟨y, hy, hyacc⟩ := List.mem_map.1 hmem
      have hylt : y.accessed_at < now := by
        refine hfresh y ?_
        rw [hab]
        rcases List.mem_append.1 hy with h | h
        · exact List.mem_append_left _ h
        · exact List.mem_append_right _ (List.mem_cons_of_mem r h)
      have : y.accessed_at = now := hyacc
      omega
    · intro x hx
      rw [hl'] at hx
      rcases List.mem_append.1 hx with h | h
      · have : x ∈ db.summaries := by
          rw [hab]
          exact List.mem_append_left _ h
        exact Nat.lt_trans (hfresh x this) ht
      · rcases List.mem_cons.1 h with rfl | h'
        · show now < t'
          exact ht
        · have : x ∈ db.summaries := by
            rw [hab]
            exact List.mem_append_right _ (List.mem_cons_of_mem r h')
          exact Nat.lt_trans (hfresh x this) ht
  | none =>
    have hnokey : ∀ x ∈ db.summaries, keyMatches x d.videoId d.style = false :=
      (replaceFirst_none_iff _ _ _ _).1 hrf
    have hpushK : ((db.summaries ++ [d.toRecord now now]).map
        SummaryRecord.key).Nodup := by
      rw [List.map_append, List.map_cons, List.map_nil, List.nodup_append]
      refine ⟨hk, by simp, ?_⟩
      intro x hx
      obtain ⟨y, hy, rfl⟩ := List.mem_map.1 hx
      simp only [List.mem_cons, List.not_mem_nil, or_false]
      intro hcon
      have : keyMatches y d.videoId d.style = true :=
        (keyMatches_iff_key y d.videoId d.style).2 (by rw [hcon]; rfl)
      rw [hnokey y hy] at this
      exact absurd this (by simp)
    have hpushA : ((db.summaries ++ [d.toRecord now now]).map
        SummaryRecord.accessed_at).Nodup := by
      rw [List.map_append, List.map_cons, List.map_nil, List.nodup_append]
      refine ⟨ha, by simp, ?_⟩
      intro x hx
      obtain ⟨y, hy, rfl⟩ := List.mem_map.1 hx
      have := hfresh y hy
      simp only [List.mem_cons, List.not_mem_nil, or_false]
      show y.accessed_at ≠ now
      omega
    have hpushF : ∀ x ∈ db.summaries ++ [d.toRecord now now],
        x.accessed_at < t' := by
      intro x hx
      rcases List.mem_append.1 hx with h | h
      · exact Nat.lt_trans (hfresh x h) ht
      · have : x = d.toRecord now now := by simpa using h
        rw [this]
        exact ht
    by_cases hp : (db.summaries ++ [d.toRecord now now]).length ≤ 100
    · rw [pushAndEvict_le _ _ hp] at *
      show jsonKeysNodup ⟨db.summaries ++ [d.toRecord now now]⟩ ∧ _
      exact ⟨hpushK, hpushA, hpushF⟩
    · have h101 : (db.summaries ++ [d.toRecord now now]).length = 101 := by
        rw [List.length_append] at hp ⊢
        simp at hp ⊢
        omega
      obtain ⟨w, wtail, hws, hpe, hmin, hperm⟩ :=
        pushAndEvict_overflow _ _ h101
      rw [hpe]
      have hsubperm : wtail.Sublist (w :: wtail) := List.sublist_cons_self w wtail
      refine ⟨?_, ?_, ?_⟩
      · show (wtail.map SummaryRecord.key).Nodup
        refine List.Nodup.sublist (hsubperm.map SummaryRecord.key) ?_
        exact ((hperm.map SummaryRecord.key).nodup_iff).2 hpushK
      · show (wtail.map SummaryRecord.accessed_at).Nodup
        refine List.Nodup.sublist (hsubperm.map SummaryRecord.accessed_at) ?_
        exact ((hperm.map SummaryRecord.accessed_at).nodup_iff).2 hpushA
      · intro x hx
        exact hpushF x (hperm.subset (List.mem_cons_of_mem w hx))

/-- C1: capacity invariant with recency eviction.  (a) From the empty
store, after every `put` of any sequence both backends hold at most 100
live records.  (b) At the boundary — 100 records, fresh key, fresh stamp,
distinct stamps and rowids — the overflowing `put` leaves exactly 100 rows,
all drawn from the post-write table, the just-written record is among them,
and every deleted row is strictly older (by `accessed_at`) than every
retained row: the retained records are exactly the 100 most recently
accessed.  (c) The same at the boundary for the JSON backend, whose
post-write set is `summaries ++ [newRecord]`. -/
theorem capacity_invariant :
    (∀ ops : List (SummaryData × Nat),
      (runPutsSql ops).rows.length ≤ 100 ∧
      (runPutsJson ops).summaries.length ≤ 100) ∧
    (∀ (db : SqliteDb) (d : SummaryData) (now : Nat),
      db.rows.length = 100 →
      (∀ r ∈ db.rows, keyMatches r.record d.videoId d.style = false) →
      sqlIdsBound db → sqlIdsNodup db → sqlFresh db now → sqlAccNodup db →
      (Sql.saveSummary db d now).rows.length = 100 ∧
      (∀ r ∈ (Sql.saveSummary db d now).rows,
        r ∈ (Sql.insertOrReplace db d now).rows) ∧
      (⟨db.nextId, d.toRecord now now⟩ : SRow) ∈
        (Sql.saveSummary db d now).rows ∧
      (∀ x ∈ (Sql.insertOrReplace db d now).rows,
        x ∉ (Sql.saveSummary db d now).rows →
        ∀ k ∈ (Sql.saveSummary db d now).rows,
          x.record.accessed_at < k.record.accessed_at)) ∧
    (∀ (db : JsonDb) (d : SummaryData) (now : Nat),
      db.summaries.length = 100 →
      (∀ r ∈ db.summaries, keyMatches r d.videoId d.style = false) →
      jsonFresh db now → jsonAccNodup db →
      (Json.saveSummary db d now).summaries.length = 100 ∧
      (∀ r ∈ (Json.saveSummary db d now).summaries,
        r ∈ db.summaries ++ [d.toRecord now now]) ∧
      d.toRecord now now ∈ (Json.saveSummary db d now).summaries ∧
      (∀ x ∈ db.summaries ++ [d.toRecord now now],
        x ∉ (Json.saveSummary db d now).summaries →
        ∀ k ∈ (Json.saveSummary db d now).summaries,
          x.accessed_at < k.accessed_at)) := by
  refine ⟨?_, ?_, ?_⟩
  · intro ops
    exact ⟨(foldPutsSql_inv ops emptySql
        ⟨by simp [emptySql], by simp [emptySql, sqlIdsBound],
         by simp [emptySql, sqlIdsNodup]⟩).1,
      foldPutsJson_le ops emptyJson (by simp [emptyJson])⟩
  · intro db d now hlen hnokey hb hn hfresh haccU
    have hior := insertOrReplace_new db d now hnokey
    have hrows1 : (Sql.insertOrReplace db d now).rows =
        db.rows ++ [⟨db.nextId, d.toRecord now now⟩] := by rw [hior]
    have hlen1 : (Sql.insertOrReplace db d now).rows.length = 101 := by
      rw [hrows1, List.length_append, hlen]
      rfl
    have hn1 : sqlIdsNodup (Sql.insertOrReplace db d now) := by
      show ((Sql.insertOrReplace db d now).rows.map SRow.id).Nodup
      rw [hrows1, List.map_append, List.map_cons, List.map_nil,
        List.nodup_append]
      refine ⟨hn, by simp, ?_⟩
      intro x hx
      obtain ⟨y, hy, rfl⟩ := List.mem_map.1 hx
      have := hb y hy
      simp only [List.mem_cons, List.not_mem_nil, or_false]
      omega
    have haccs1 : ((Sql.insertOrReplace db d now).rows.map
        (fun r => r.record.accessed_at)).Nodup := by
      rw [hrows1, List.map_append, List.map_cons, List.map_nil,
        List.nodup_append]
      refine ⟨haccU, by simp, ?_⟩
      intro x hx
      obtain ⟨y, hy, rfl⟩ := List.mem_map.1 hx
      have := hfresh y hy
      simp only [List.mem_cons, List.not_mem_nil, or_false]
      show y.record.accessed_at ≠ (d.toRecord now now).accessed_at
      show y.record.accessed_at ≠ now
      omega
    have hsave : Sql.saveSummary db d now =
        Sql.enforceLimit (Sql.insertOrReplace db d now) := rfl
    obtain ⟨v, stail, hvs, hperm', hmin, hvmem⟩ :=
      enforceLimit_overflow _ hlen1 hn1
    have hsortperm : (v :: stail).Perm (Sql.insertOrReplace db d now).rows :=
      hvs ▸ List.mergeSort_perm _ _
    have hsortperm' : (v :: stail).Perm
        (db.rows ++ [⟨db.nextId, d.toRecord now now⟩]) := by
      rw [← hrows1]
      exact hsortperm
    have hdbne : db.rows ≠ [] := by
      intro hnil
      rw [hnil] at hlen
      simp at hlen
    have hvnew : v ≠ ⟨db.nextId, d.toRecord now now⟩ :=
      sql_sorted_head_not_new v _ stail db.rows hsortperm' hmin
        (fun x hx => hfresh x hx) hdbne
    have hstl : (v :: stail).length = 101 :=
      hsortperm.length_eq.trans hlen1
    have hstail_len : stail.length = 100 := by
      simp at hstl
      omega
    have hnew_stail : (⟨db.nextId, d.toRecord now now⟩ : SRow) ∈ stail := by
      have hmem1 : (⟨db.nextId, d.toRecord now now⟩ : SRow) ∈
          (Sql.insertOrReplace db d now).rows := by
        rw [hrows1]
        exact List.mem_append_right _ (by simp)
      rcases List.mem_cons.1 (hsortperm.symm.subset hmem1) with hc | hc
      · exact absurd hc.symm hvnew
      · exact hc
    refine ⟨?_, ?_, ?_, ?_⟩
    · rw [hsave, hperm'.length_eq, hstail_len]
    · intro r hr
      rw [hsave] at hr
      exact (enforceLimit_sublist _).1.subset hr
    · rw [hsave]
      exact hperm'.symm.subset hnew_stail
    · intro x hx hnx k hk
      rw [hsave] at hnx hk
      have hxv : x = v := by
        rcases List.mem_cons.1 (hsortperm.symm.subset hx) with hc | hc
        · exact hc
        · exact absurd (hperm'.symm.subset hc) hnx
      have hkst : k ∈ stail := hperm'.subset hk
      have hkmem : k ∈ (Sql.insertOrReplace db d now).rows :=
        (enforceLimit_sublist _).1.subset hk
      have hkv : k ≠ v := by
        intro hkv
        rw [← hkv] at hxv
        exact hnx (hxv ▸ hk)
      have hle := ascRow_le (hmin k hkst)
      have hneq : v.record.accessed_at ≠ k.record.accessed_at := by
        intro heq
        exact hkv (List.inj_on_of_nodup_map haccs1 hkmem hvmem heq.symm)
      rw [hxv]
      omega
  · intro db d now hlen hnokey hfresh haccU
    have hrfnone : Json.replaceFirst db.summaries d.videoId d.style
        (d.toRecord now now) = none :=
      (replaceFirst_none_iff _ _ _ _).2 hnokey
    have hsave : Json.saveSummary db d now =
        ⟨Json.pushAndEvict db.summaries (d.toRecord now now)⟩ := by
      have hdef : Json.saveSummary db d now =
          (match Json.replaceFirst db.summaries d.videoId d.style
              (d.toRecord now now) with
           | some l => (⟨l⟩ : JsonDb)
           | none => ⟨Json.pushAndEvict db.summaries (d.toRecord now now)⟩) :=
        rfl
      rw [hdef, hrfnone]
    have hlen1 : (db.summaries ++ [d.toRecord now now]).length = 101 := by
      rw [List.length_append, hlen]
      rfl
    obtain ⟨w, wtail, hws, hpe, hmin, hperm⟩ :=
      pushAndEvict_overflow db.summaries (d.toRecord now now) hlen1
    have hdbne : db.summaries ≠ [] := by
      intro hnil
      rw [hnil] at hlen
      simp at hlen
    have hwnew : w ≠ d.toRecord now now :=
      json_sorted_head_not_new w _ wtail db.summaries hperm hmin
        (fun x hx => hfresh x hx) hdbne
    have hstl : (w :: wtail).length = 101 := hperm.length_eq.trans hlen1
    have hwtail_len : wtail.length = 100 := by
      simp at hstl
      omega
    have haccs1 : ((db.summaries ++ [d.toRecord now now]).map
        SummaryRecord.accessed_at).Nodup := by
      rw [List.map_append, List.map_cons, List.map_nil, List.nodup_append]
      refine ⟨haccU, by simp, ?_⟩
      intro x hx
      obtain ⟨y, hy, rfl⟩ := List.mem_map.1 hx
      have := hfresh y hy
      simp only [List.mem_cons, List.not_mem_nil, or_false]
      show y.accessed_at ≠ (d.toRecord now now).accessed_at
      show y.accessed_at ≠ now
      omega
    have hnew_wtail : d.toRecord now now ∈ wtail := by
      have hmem1 : d.toRecord now now ∈
          db.summaries ++ [d.toRecord now now] :=
        List.mem_append_right _ (by simp)
      rcases List.mem_cons.1 (hperm.symm.subset hmem1) with hc | hc
      · exact absurd hc.symm hwnew
      · exact hc
    rw [hsave, hpe]
    refine ⟨hwtail_len, ?_, hnew_wtail, ?_⟩
    · intro r hr
      exact hperm.subset (List.mem_cons_of_mem w hr)
    · intro x hx hnx k hk
      have hxw : x = w := by
        rcases List.mem_cons.1 (hperm.symm.subset hx) with hc | hc
        · exact hc
        · exact absurd hc hnx
      have hkmem : k ∈ db.summaries ++ [d.toRecord now now] :=
        hperm.subset (List.mem_cons_of_mem w hk)
      have hwmem : w ∈ db.summaries ++ [d.toRecord now now] :=
        hperm.subset (List.mem_cons_self w wtail)
      have hkw : k ≠ w := by
        intro hkw
        rw [← hxw] at hkw
        exact hnx (hkw ▸ hk)
      have hle : w.accessed_at ≤ k.accessed_at := by
        have := hmin k hk
        simpa [Json.ascRec] using this
      have hneq : w.accessed_at ≠ k.accessed_at := by
        intro heq
        exact hkw (List.inj_on_of_nodup_map haccs1 hkmem hwmem heq.symm)
      rw [hxw]
      omega

theorem map_eq_singleton {α β : Type} {f : α → β} {l : List α} {y : β}
    (h : l.map f = [y]) : ∃ a, l = [a] ∧ f a = y := by
  cases l with
  | nil => simp at h
  | cons a t =>
    rw [List.map_cons] at h
    injection h with h1 h2
    exact ⟨a, by rw [List.map_eq_nil_iff.1 h2], h1⟩

/-- `saveSummary` leaves every stamp strictly below any later clock value
(SQLite). -/
theorem sql_save_fresh (db : SqliteDb) (d : SummaryData) (now t' : Nat)
    (hfresh : sqlFresh db now) (ht : now < t') :
    sqlFresh (Sql.saveSummary db d now) t' := by
  intro r hr
  have hr1 : r ∈ (Sql.insertOrReplace db d now).rows :=
    (enforceLimit_sublist _).1.subset hr
  rw [(insertOrReplace_rows db d now).1] at hr1
  rcases List.mem_append.1 hr1 with h | h
  · exact Nat.lt_trans (hfresh r (List.mem_of_mem_filter h)) ht
  · have : r = ⟨db.nextId, d.toRecord (Sql.createdAtQuery db d now) now⟩ := by
      simpa using h
    rw [this]
    show now < t'
    exact ht

theorem descRow_le {a b : SRow} (h : Sql.descRow a b = true) :
    b.record.accessed_at ≤ a.record.accessed_at := by
  simp only [Sql.descRow, decide_eq_true_eq] at h
  rcases h with h | ⟨h, -⟩
  · exact Nat.le_of_lt h
  · exact Nat.le_of_eq h

/-- A weakly descending list with pairwise-distinct keys strictly
descends. -/
theorem pairwise_gt_of_ge_nodup {α : Type} (f : α → Nat) {l : List α}
    (hp : l.Pairwise (fun a b => f b ≤ f a)) (hn : (l.map f).Nodup) :
    l.Pairwise (fun a b => f b < f a) := by
  have hne : l.Pairwise (fun a b => f a ≠ f b) := List.pairwise_map.1 hn
  exact (hp.and hne).imp (fun h => Nat.lt_of_le_of_ne h.1 (fun e => h.2 e.symm))

/-- Two permuted lists, each strictly descending along a numeric key, are
equal. -/
theorem eq_of_perm_of_pairwise_gt {α : Type} (f : α → Nat) {l m : List α}
    (h : l.Perm m) (hl : l.Pairwise (fun a b => f b < f a))
    (hm : m.Pairwise (fun a b => f b < f a)) : l = m := by
  haveI : IsAntisymm α (fun a b => f b < f a) :=
    ⟨fun a b h1 h2 => absurd (Nat.lt_trans h1 h2) (Nat.lt_irrefl _)⟩
  exact List.eq_of_perm_of_sorted h hl hm

/-- Key uniqueness bounds the number of matches of one key by one. -/
theorem countP_key_le_one {l : List SummaryRecord} (v s : String)
    (hk : (l.map SummaryRecord.key).Nodup) :
    l.countP (fun r => keyMatches r v s) ≤ 1 := by
  induction l with
  | nil => simp
  | cons r t ih =>
    rw [List.map_cons, List.nodup_cons] at hk
    by_cases hr : keyMatches r v s = true
    · rw [List.countP_cons_of_pos (fun r => keyMatches r v s) _ hr]
      have hzero : t.countP (fun r => keyMatches r v s) = 0 := by
        rw [List.countP_eq_zero]
        intro y hy hym
        refine hk.1 ?_
        rw [(keyMatches_iff_key r v s).1 hr,
          ← (keyMatches_iff_key y v s).1 hym]
        exact List.mem_map_of_mem SummaryRecord.key hy
      omega
    · rw [List.countP_cons_of_neg (fun r => keyMatches r v s) _ hr]
      exact ih hk.2

/-- Two distinct matching members force at least two matches. -/
theorem countP_ge_two {α : Type} {p : α → Bool} {l : List α} {x y : α}
    (hx : x ∈ l) (hpx : p x = true) (hy : y ∈ l) (hpy : p y = true)
    (hxy : x ≠ y) : 2 ≤ l.countP p := by
  obtain ⟨a, b, rfl⟩ := List.append_of_mem hx
  have hy' : y ∈ a ++ b := by
    rcases List.mem_append.1 hy with h | h
    · exact List.mem_append_left _ h
    · rcases List.mem_cons.1 h with rfl | h'
      · exact absurd rfl hxy
      · exact List.mem_append_right _ h'
  have h1 : 0 < (a ++ b).countP p := List.countP_pos_iff.2 ⟨y, hy', hpy⟩
  rw [List.countP_append] at h1
  rw [List.countP_append, List.countP_cons_of_pos p _ hpx]
  omega

/-- Replacing the shared middle element of two permuted splits preserves
the permutation. -/
theorem perm_replace_middle {α : Type} {x x' : α} {A B a b : List α}
    (h : (A ++ x :: B).Perm (a ++ x :: b)) :
    (A ++ x' :: B).Perm (a ++ x' :: b) := by
  have h1 : (x :: (A ++ B)).Perm (x :: (a ++ b)) :=
    (List.perm_middle.symm.trans h).trans List.perm_middle
  have h2 := h1.cons_inv
  exact (List.perm_middle.trans (h2.cons x')).trans List.perm_middle.symm

/-- Key uniqueness transfers through the state relation to the SQLite
rows. -/
theorem sql_keys_of_perm {sdb : SqliteDb} {jdb : JsonDb}
    (hperm : (sdb.rows.map SRow.record).Perm jdb.summaries)
    (hk : jsonKeysNodup jdb) : sqlKeysNodup sdb := by
  show (sdb.rows.map (fun r => r.record.key)).Nodup
  have heq : sdb.rows.map (fun r => r.record.key) =
      (sdb.rows.map SRow.record).map SummaryRecord.key := by
    rw [List.map_map]
    rfl
  rw [heq]
  exact ((hperm.map SummaryRecord.key).nodup_iff).2 hk

/-- The rowid invariants survive `INSERT OR REPLACE`. -/
theorem insertOrReplace_ids (db : SqliteDb) (d : SummaryData) (now : Nat)
    (hb : sqlIdsBound db) (hn : sqlIdsNodup db) :
    sqlIdsNodup (Sql.insertOrReplace db d now) ∧
    sqlIdsBound (Sql.insertOrReplace db d now) := by
  obtain ⟨hF, hnext⟩ := insertOrReplace_rows db d now
  constructor
  · show ((Sql.insertOrReplace db d now).rows.map SRow.id).Nodup
    rw [hF, List.map_append, List.map_cons, List.map_nil, List.nodup_append]
    refine ⟨hn.sublist ((List.filter_sublist _).map SRow.id), by simp, ?_⟩
    intro x hx
    obtain ⟨y, hy, rfl⟩ := List.mem_map.1 hx
    have := hb y (List.mem_of_mem_filter hy)
    simp only [List.mem_cons, List.not_mem_nil, or_false]
    omega
  · intro r hr
    rw [hnext]
    rw [hF] at hr
    rcases List.mem_append.1 hr with h | h
    · exact Nat.lt_succ_of_lt (hb r (List.mem_of_mem_filter h))
    · have : r = ⟨db.nextId, d.toRecord (Sql.createdAtQuery db d now) now⟩ := by
        simpa using h
      rw [this]
      exact Nat.lt_succ_self _

/-- The `accessed_at` update of a `get` hit leaves every rowid in place. -/
theorem map_update_id (rows : List SRow) (v s : String) (t : Nat) :
    ((rows.map (fun r =>
        if keyMatches r.record v s then
          { r with record := { r.record with accessed_at := t } }
        else r)).map SRow.id) = rows.map SRow.id := by
  rw [List.map_map]
  refine List.map_congr_left ?_
  intro x hx
  by_cases h : keyMatches x.record v s = true <;> simp [h]

/-- With equal record multisets and distinct stamps, `listRecent` returns
the same list from both backends. -/
theorem recent_lists_eq {sdb : SqliteDb} {jdb : JsonDb}
    (hperm : (sdb.rows.map SRow.record).Perm jdb.summaries)
    (ha : jsonAccNodup jdb) (n : Nat) :
    Sql.getRecentSummaries sdb n = Json.getRecentSummaries jdb n := by
  suffices h : (sdb.rows.mergeSort Sql.descRow).map SRow.record =
      jdb.summaries.mergeSort Json.descRec by
    unfold Sql.getRecentSummaries Json.getRecentSummaries
    rw [List.map_take, h]
  have hperm1 : ((sdb.rows.mergeSort Sql.descRow).map SRow.record).Perm
      (jdb.summaries.mergeSort Json.descRec) :=
    (((List.mergeSort_perm sdb.rows Sql.descRow).map SRow.record).trans
      hperm).trans (List.mergeSort_perm jdb.summaries Json.descRec).symm
  have hnod1 : (((sdb.rows.mergeSort Sql.descRow).map SRow.record).map
      SummaryRecord.accessed_at).Nodup :=
    ((hperm1.map SummaryRecord.accessed_at).nodup_iff).2
      (((List.mergeSort_perm jdb.summaries Json.descRec).map
        SummaryRecord.accessed_at).nodup_iff.symm.1 ha)
  have hnod2 : ((jdb.summaries.mergeSort Json.descRec).map
      SummaryRecord.accessed_at).Nodup :=
    ((List.mergeSort_perm jdb.summaries Json.descRec).map
      SummaryRecord.accessed_at).nodup_iff.symm.1 ha
  refine eq_of_perm_of_pairwise_gt SummaryRecord.accessed_at hperm1 ?_ ?_
  · refine pairwise_gt_of_ge_nodup _ ?_ hnod1
    rw [List.pairwise_map]
    exact (List.sorted_mergeSort descRow_trans descRow_total sdb.rows).imp
      (fun h => descRow_le h)
  · refine pairwise_gt_of_ge_nodup _ ?_ hnod2
    refine (List.sorted_mergeSort descRec_trans descRec_total
      jdb.summaries).imp ?_
    intro a b h
    simpa [Json.descRec] using h

/-- One `get` step against both backends: the JSON output is the SQLite
output with the fresh stamp, the record multisets stay permuted, rowids and
the counter are untouched, and the JSON store invariants are preserved. -/
theorem sim_get (sdb : SqliteDb) (jdb : JsonDb) (v s : String) (t : Nat)
    (hperm : (sdb.rows.map SRow.record).Perm jdb.summaries)
    (hk : jsonKeysNodup jdb) (ha : jsonAccNodup jdb) (hf : jsonFresh jdb t) :
    (Json.getCachedSummary jdb v s t).1 =
      Option.map (fun r => { r with accessed_at := t })
        (Sql.getCachedSummary sdb v s t).1 ∧
    ((Sql.getCachedSummary sdb v s t).2.rows.map SRow.record).Perm
      (Json.getCachedSummary jdb v s t).2.summaries ∧
    (Sql.getCachedSummary sdb v s t).2.rows.map SRow.id =
      sdb.rows.map SRow.id ∧
    (Sql.getCachedSummary sdb v s t).2.nextId = sdb.nextId ∧
    jsonKeysNodup (Json.getCachedSummary jdb v s t).2 ∧
    jsonAccNodup (Json.getCachedSummary jdb v s t).2 ∧
    (∀ t', t < t' → jsonFresh (Json.getCachedSummary jdb v s t).2 t') ∧
    (Json.getCachedSummary jdb v s t).2.summaries.length =
      jdb.summaries.length := by
  cases hfq : sdb.rows.find? (fun x => keyMatches x.record v s) with
  | none =>
    have hnom : ∀ x ∈ jdb.summaries, keyMatches x v s = false := by
      intro x hx
      obtain ⟨row, hrow, rfl⟩ := List.mem_map.1 (hperm.symm.subset hx)
      have hnone := List.find?_eq_none.1 hfq row hrow
      cases h : keyMatches row.record v s
      · rfl
      · exact absurd h hnone
    have hjf : jdb.summaries.find? (fun x => keyMatches x v s) = none :=
      List.find?_eq_none.2 (fun x hx => by simp [hnom x hx])
    have hsq : Sql.getCachedSummary sdb v s t = (none, sdb) := by
      unfold Sql.getCachedSummary
      rw [hfq]
    have hjq : Json.getCachedSummary jdb v s t = (none, jdb) := by
      unfold Json.getCachedSummary
      rw [hjf]
    rw [hsq, hjq]
    exact ⟨rfl, hperm, rfl, rfl, hk, ha,
      fun t' ht' x hx => Nat.lt_trans (hf x hx) ht', rfl⟩
  | some row =>
    have hrow_mem := List.mem_of_find?_eq_some hfq
    have hrow_p : keyMatches row.record v s = true := by
      simpa using List.find?_some hfq
    cases hjf : jdb.summaries.find? (fun x => keyMatches x v s) with
    | none =>
      exact absurd (List.find?_eq_none.1 hjf row.record
        (hperm.subset (List.mem_map_of_mem SRow.record hrow_mem)))
        (by simp [hrow_p])
    | some pre =>
      have hpre_mem := List.mem_of_find?_eq_some hjf
      have hpre_p : keyMatches pre v s = true := by
        simpa using List.find?_some hjf
      have hpre_eq : pre = row.record := by
        by_contra hne
        have h2 := countP_ge_two (p := fun r => keyMatches r v s) hpre_mem
          hpre_p (hperm.subset (List.mem_map_of_mem SRow.record hrow_mem))
          hrow_p hne
        have h1 := countP_key_le_one v s hk
        omega
      have hks : sqlKeysNodup sdb := sql_keys_of_perm hperm hk
      obtain ⟨A, B, hAB, hne⟩ :=
        nodup_map_decomp (fun x => x.record.key)
          (show (sdb.rows.map fun x => x.record.key).Nodup from hks) hrow_mem
      have hAno : ∀ x ∈ A, keyMatches x.record v s = false := by
        intro x hx
        have hxk := hne x (List.mem_append.2 (Or.inl hx))
        rw [(keyMatches_iff_key row.record v s).1 hrow_p] at hxk
        cases hkx : keyMatches x.record v s
        · rfl
        · exact absurd ((keyMatches_iff_key _ _ _).1 hkx) hxk
      have hBno : ∀ x ∈ B, keyMatches x.record v s = false := by
        intro x hx
        have hxk := hne x (List.mem_append.2 (Or.inr hx))
        rw [(keyMatches_iff_key row.record v s).1 hrow_p] at hxk
        cases hkx : keyMatches x.record v s
        · rfl
        · exact absurd ((keyMatches_iff_key _ _ _).1 hkx) hxk
      have hsq : Sql.getCachedSummary sdb v s t = (some row.record,
          { sdb with rows := sdb.rows.map (fun r =>
              if keyMatches r.record v s then
                { r with record := { r.record with accessed_at := t } }
              else r) }) := by
        unfold Sql.getCachedSummary
        rw [hfq]
      obtain ⟨a, b, hab, hano⟩ := find?_eq_some_decomp hjf
      have hjq : Json.getCachedSummary jdb v s t =
          (some { pre with accessed_at := t },
           ⟨Json.updateFirst jdb.summaries v s t⟩) := by
        unfold Json.getCachedSummary
        rw [hjf]
      have hupd : Json.updateFirst jdb.summaries v s t =
          a ++ { pre with accessed_at := t } :: b := by
        rw [hab]
        exact updateFirst_append_cons v s t a pre b hano hpre_p
      have hsrows : (sdb.rows.map (fun r =>
            if keyMatches r.record v s then
              { r with record := { r.record with accessed_at := t } }
            else r)) =
          A ++ { row with record := { row.record with accessed_at := t } }
            :: B := by
        rw [hAB]
        exact sql_update_rows v s t A row B hAno hBno hrow_p
      have hperm_split : (A.map SRow.record ++ row.record ::
          B.map SRow.record).Perm (a ++ row.record :: b) := by
        have h := hperm
        rw [hAB, hab, hpre_eq, List.map_append, List.map_cons] at h
        exact h
      rw [hsq, hjq]
      refine ⟨?_, ?_, ?_, rfl, ?_, ?_, ?_, ?_⟩
      · rw [hpre_eq]
        rfl
      · show ((sdb.rows.map _).map SRow.record).Perm
          (Json.updateFirst jdb.summaries v s t)
        rw [hsrows, hupd, List.map_append, List.map_cons, hpre_eq]
        exact perm_replace_middle hperm_split
      · exact map_update_id sdb.rows v s t
      · show ((Json.updateFirst jdb.summaries v s t).map
          SummaryRecord.key).Nodup
        rw [hupd, List.map_append, List.map_cons]
        have hkk : (jdb.summaries.map SummaryRecord.key).Nodup := hk
        rw [hab, List.map_append, List.map_cons] at hkk
        exact hkk
      · show ((Json.updateFirst jdb.summaries v s t).map
          SummaryRecord.accessed_at).Nodup
        rw [hupd, List.map_append, List.map_cons]
        have horig : (jdb.summaries.map SummaryRecord.accessed_at).Nodup := ha
        rw [hab, List.map_append, List.map_cons] at horig
        rw [List.nodup_middle] at horig ⊢
        rw [List.nodup_cons] at horig ⊢
        refine ⟨?_, horig.2⟩
        intro hmem
        rw [← List.map_append] at hmem
        obtain ⟨y, hy, hyacc⟩ := List.mem_map.1 hmem
        have hylt : y.accessed_at < t := by
          refine hf y ?_
          rw [hab]
          rcases List.mem_append.1 hy with h | h
          · exact List.mem_append_left _ h
          · exact List.mem_append_right _ (List.mem_cons_of_mem pre h)
        have : y.accessed_at = t := hyacc
        omega
      · intro t' ht' x hx
        show x.accessed_at < t'
        rw [hupd] at hx
        rcases List.mem_append.1 hx with h | h
        · refine Nat.lt_trans (hf x ?_) ht'
          rw [hab]
          exact List.mem_append_left _ h
        · rcases List.mem_cons.1 h with rfl | h'
          · exact ht'
          · refine Nat.lt_trans (hf x ?_) ht'
            rw [hab]
            exact List.mem_append_right _ (List.mem_cons_of_mem pre h')
      · show (Json.updateFirst jdb.summaries v s t).length =
          jdb.summaries.length
        rw [hupd, hab]
        simp

/-- One `put` step keeps the record multisets of the two backends
permuted. -/
theorem sim_put (sdb : SqliteDb) (jdb : JsonDb) (d : SummaryData) (t : Nat)
    (hperm : (sdb.rows.map SRow.record).Perm jdb.summaries)
    (hk : jsonKeysNodup jdb) (ha : jsonAccNodup jdb) (hf : jsonFresh jdb t)
    (hcard : jdb.summaries.length ≤ 100)
    (hb : sqlIdsBound sdb) (hn : sqlIdsNodup sdb) :
    ((Sql.saveSummary sdb d t).rows.map SRow.record).Perm
      (Json.saveSummary jdb d t).summaries := by
  have hjdef : Json.saveSummary jdb d t =
      (match Json.replaceFirst jdb.summaries d.videoId d.style
          (d.toRecord t t) with
       | some l => (⟨l⟩ : JsonDb)
       | none => ⟨Json.pushAndEvict jdb.summaries (d.toRecord t t)⟩) := rfl
  have hlenrows : sdb.rows.length = jdb.summaries.length := by
    rw [← hperm.length_eq, List.length_map]
  cases hrf : Json.replaceFirst jdb.summaries d.videoId d.style
      (d.toRecord t t) with
  | some l' =>
    obtain ⟨a, r, b, hab, hl', hano, hr⟩ := replaceFirst_some_decomp hrf
    have hrjdb : r ∈ jdb.summaries := by
      rw [hab]
      exact List.mem_append_right _ (List.mem_cons_self r b)
    obtain ⟨row0, hrow0_mem, hrow0_rec⟩ :=
      List.mem_map.1 (hperm.symm.subset hrjdb)
    have hrow0_p : keyMatches row0.record d.videoId d.style = true := by
      rw [hrow0_rec]
      exact hr
    cases hfq : sdb.rows.find?
        (fun x => keyMatches x.record d.videoId d.style) with
    | none =>
      exact absurd hrow0_p (by simpa using List.find?_eq_none.1 hfq row0 hrow0_mem)
    | some row1 =>
      have hrow1_mem := List.mem_of_find?_eq_some hfq
      have hrow1_p : keyMatches row1.record d.videoId d.style = true := by
        simpa using List.find?_some hfq
      have hrow1_rec : row1.record = r := by
        by_contra hner
        have h2 := countP_ge_two
          (p := fun x => keyMatches x d.videoId d.style)
          (hperm.subset (List.mem_map_of_mem SRow.record hrow1_mem)) hrow1_p
          hrjdb hr hner
        have h1 := countP_key_le_one d.videoId d.style hk
        omega
      have hcq : Sql.createdAtQuery sdb d t = r.created_at := by
        show (match sdb.rows.find?
            (fun x => keyMatches x.record d.videoId d.style) with
          | some rr => rr.record.created_at
          | none => t) = r.created_at
        rw [hfq]
        show row1.record.created_at = r.created_at
        rw [hrow1_rec]
      have hks : sqlKeysNodup sdb := sql_keys_of_perm hperm hk
      obtain ⟨A, B, hAB, hne⟩ :=
        nodup_map_decomp (fun x => x.record.key)
          (show (sdb.rows.map fun x => x.record.key).Nodup from hks)
          hrow1_mem
      have hAno : ∀ x ∈ A, keyMatches x.record d.videoId d.style = false := by
        intro x hx
        have hxk := hne x (List.mem_append.2 (Or.inl hx))
        rw [(keyMatches_iff_key row1.record d.videoId d.style).1 hrow1_p]
          at hxk
        cases hkx : keyMatches x.record d.videoId d.style
        · rfl
        · exact absurd ((keyMatches_iff_key _ _ _).1 hkx) hxk
      have hBno : ∀ x ∈ B, keyMatches x.record d.videoId d.style = false := by
        intro x hx
        have hxk := hne x (List.mem_append.2 (Or.inr hx))
        rw [(keyMatches_iff_key row1.record d.videoId d.style).1 hrow1_p]
          at hxk
        cases hkx : keyMatches x.record d.videoId d.style
        · rfl
        · exact absurd ((keyMatches_iff_key _ _ _).1 hkx) hxk
      have hFeq : sdb.rows.filter
          (fun x => !(keyMatches x.record d.videoId d.style)) = A ++ B := by
        rw [hAB, List.filter_append,
          List.filter_cons_of_neg (by simp [hrow1_p]),
          List.filter_eq_self.2 (fun x hx => by simp [hAno x hx]),
          List.filter_eq_self.2 (fun x hx => by simp [hBno x hx])]
      obtain ⟨hF, hnext⟩ := insertOrReplace_rows sdb d t
      have hrows1 : (Sql.insertOrReplace sdb d t).rows =
          (A ++ B) ++ [⟨sdb.nextId, d.toRecord r.created_at t⟩] := by
        rw [hF, hFeq, hcq]
      have hlenAB : sdb.rows.length = A.length + B.length + 1 := by
        rw [hAB]
        simp [List.length_append]
        omega
      have hlen1 : (Sql.insertOrReplace sdb d t).rows.length ≤ 100 := by
        rw [hrows1]
        simp only [List.length_append, List.length_cons, List.length_nil]
        omega
      have hsave : Sql.saveSummary sdb d t = Sql.insertOrReplace sdb d t := by
        show Sql.enforceLimit _ = _
        exact enforceLimit_le _ hlen1
      have hperm_mid : (A.map SRow.record ++ B.map SRow.record).Perm
          (a ++ b) := by
        have h := hperm
        rw [hAB, hab, List.map_append, List.map_cons, hrow1_rec] at h
        exact ((List.perm_middle.symm.trans h).trans
          List.perm_middle).cons_inv
      rw [hsave, hjdef, hrf, hrows1, hl']
      show (((A ++ B) ++
          [(⟨sdb.nextId, d.toRecord r.created_at t⟩ : SRow)]).map
          SRow.record).Perm
        (a ++ { d.toRecord t t with created_at := r.created_at } :: b)
      rw [List.map_append, List.map_append]
      simp only [List.map_cons, List.map_nil]
      have hmid := @List.perm_middle SummaryRecord
        { d.toRecord t t with created_at := r.created_at }
        (A.map SRow.record ++ B.map SRow.record) []
      refine List.Perm.trans (by simpa using hmid) ?_
      exact (hperm_mid.cons _).trans List.perm_middle.symm
  | none =>
    have hnokey_j : ∀ x ∈ jdb.summaries,
        keyMatches x d.videoId d.style = false :=
      (replaceFirst_none_iff _ _ _ _).1 hrf
    have hnokey_s : ∀ row ∈ sdb.rows,
        keyMatches row.record d.videoId d.style = false := by
      intro row hrow
      exact hnokey_j row.record
        (hperm.subset (List.mem_map_of_mem SRow.record hrow))
    have hior := insertOrReplace_new sdb d t hnokey_s
    have hrows1 : (Sql.insertOrReplace sdb d t).rows =
        sdb.rows ++ [⟨sdb.nextId, d.toRecord t t⟩] := by
      rw [hior]
    have hperm1 : ((Sql.insertOrReplace sdb d t).rows.map SRow.record).Perm
        (jdb.summaries ++ [d.toRecord t t]) := by
      rw [hrows1, List.map_append]
      exact hperm.append (List.Perm.refl _)
    have hsavedef : Sql.saveSummary sdb d t =
        Sql.enforceLimit (Sql.insertOrReplace sdb d t) := rfl
    by_cases hp : (jdb.summaries ++ [d.toRecord t t]).length ≤ 100
    · have hlen1 : (Sql.insertOrReplace sdb d t).rows.length ≤ 100 := by
        rw [← List.length_map (Sql.insertOrReplace sdb d t).rows SRow.record,
          hperm1.length_eq]
        exact hp
      rw [hsavedef, enforceLimit_le _ hlen1, hjdef, hrf,
        pushAndEvict_le _ _ hp]
      exact hperm1
    · have h101 : (jdb.summaries ++ [d.toRecord t t]).length = 101 := by
        rw [List.length_append] at hp ⊢
        simp at hp ⊢
        omega
      have h101s : (Sql.insertOrReplace sdb d t).rows.length = 101 := by
        rw [← List.length_map (Sql.insertOrReplace sdb d t).rows SRow.record,
          hperm1.length_eq]
        exact h101
      obtain ⟨hn1, hb1⟩ := insertOrReplace_ids sdb d t hb hn
      obtain ⟨v, stail, hvs, hpermS, hmin, hvmem⟩ :=
        enforceLimit_overflow _ h101s hn1
      obtain ⟨w, wtail, hws, hpe, hminJ, hpermJ⟩ :=
        pushAndEvict_overflow jdb.summaries (d.toRecord t t) h101
      have hpushA : ((jdb.summaries ++ [d.toRecord t t]).map
          SummaryRecord.accessed_at).Nodup := by
        rw [List.map_append, List.map_cons, List.map_nil, List.nodup_append]
        refine ⟨ha, by simp, ?_⟩
        intro x hx
        obtain ⟨y, hy, rfl⟩ := List.mem_map.1 hx
        have := hf y hy
        simp only [List.mem_cons, List.not_mem_nil, or_false]
        show y.accessed_at ≠ t
        omega
      have hsorteq : (((Sql.insertOrReplace sdb d t).rows.mergeSort
          Sql.ascRow).map SRow.record) =
          ((jdb.summaries ++ [d.toRecord t t]).mergeSort Json.ascRec) := by
        have hpermsort : ((((Sql.insertOrReplace sdb d t).rows.mergeSort
            Sql.ascRow).map SRow.record)).Perm
            ((jdb.summaries ++ [d.toRecord t t]).mergeSort Json.ascRec) :=
          (((List.mergeSort_perm _ Sql.ascRow).map SRow.record).trans
            hperm1).trans
            (List.mergeSort_perm _ Json.ascRec).symm
        refine eq_of_perm_of_pairwise_lt SummaryRecord.accessed_at
          hpermsort ?_ ?_
        · refine pairwise_lt_of_le_nodup _ ?_ ?_
          · rw [List.pairwise_map]
            exact (List.sorted_mergeSort ascRow_trans ascRow_total _).imp
              (fun h => ascRow_le h)
          · exact ((hpermsort.map SummaryRecord.accessed_at).nodup_iff).2
              (((List.mergeSort_perm _ Json.ascRec).map
                SummaryRecord.accessed_at).nodup_iff.symm.1 hpushA)
        · refine pairwise_lt_of_le_nodup _ ?_ ?_
          · refine (List.sorted_mergeSort ascRec_trans ascRec_total _).imp ?_
            intro x y h
            simpa [Json.ascRec] using h
          · exact ((List.mergeSort_perm _ Json.ascRec).map
              SummaryRecord.accessed_at).nodup_iff.symm.1 hpushA
      rw [hvs, hws] at hsorteq
      rw [List.map_cons] at hsorteq
      injection hsorteq with hvw htail
      rw [hsavedef, hjdef, hrf, hpe]
      show (((Sql.enforceLimit (Sql.insertOrReplace sdb d t)).rows).map
        SRow.record).Perm wtail
      rw [← htail]
      exact hpermS.map SRow.record

/-- One operation step of the backend simulation: outputs agree up to
`adjustOut`, record multisets stay permuted, and all store invariants are
maintained. -/
theorem sim_step (sdb : SqliteDb) (jdb : JsonDb) (op : CacheOp) (t : Nat)
    (hperm : (sdb.rows.map SRow.record).Perm jdb.summaries)
    (hb : sqlIdsBound sdb) (hn : sqlIdsNodup sdb)
    (hk : jsonKeysNodup jdb) (ha : jsonAccNodup jdb)
    (hf : jsonFresh jdb t) (hcard : jdb.summaries.length ≤ 100) :
    (jsonStep jdb op t).1 = adjustOut t (sqlStep sdb op t).1 ∧
    ((sqlStep sdb op t).2.rows.map SRow.record).Perm
      (jsonStep jdb op t).2.summaries ∧
    sqlIdsBound (sqlStep sdb op t).2 ∧ sqlIdsNodup (sqlStep sdb op t).2 ∧
    jsonKeysNodup (jsonStep jdb op t).2 ∧
    jsonAccNodup (jsonStep jdb op t).2 ∧
    (∀ t', t < t' → jsonFresh (jsonStep jdb op t).2 t') ∧
    (jsonStep jdb op t).2.summaries.length ≤ 100 := by
  cases op with
  | checkExists v s =>
    refine ⟨?_, hperm, hb, hn, hk, ha,
      fun t' ht' x hx => Nat.lt_trans (hf x hx) ht', hcard⟩
    have hcount : sdb.rows.countP (fun r => keyMatches r.record v s) =
        jdb.summaries.countP (fun r => keyMatches r v s) := by
      have h1 : (sdb.rows.map SRow.record).countP
          (fun r => keyMatches r v s) =
          sdb.rows.countP (fun r => keyMatches r.record v s) :=
        List.countP_map (fun r => keyMatches r v s) SRow.record sdb.rows
      rw [← h1]
      exact hperm.countP_eq _
    have h2 : Json.checkSummaryExists jdb v s =
        decide (0 < jdb.summaries.countP (fun r => keyMatches r v s)) := by
      rw [Bool.eq_iff_iff]
      simp only [Json.checkSummaryExists, List.any_eq_true,
        decide_eq_true_eq, List.countP_pos_iff]
    have h1 : Sql.checkSummaryExists sdb v s =
        decide (0 < jdb.summaries.countP (fun r => keyMatches r v s)) := by
      unfold Sql.checkSummaryExists
      rw [hcount]
    show CacheOut.boolOut (Json.checkSummaryExists jdb v s) =
      adjustOut t (CacheOut.boolOut (Sql.checkSummaryExists sdb v s))
    rw [h1, h2]
    rfl
  | getSummary v s =>
    obtain ⟨hout, hperm', hids, hnext, hk', ha', hf', hcard'⟩ :=
      sim_get sdb jdb v s t hperm hk ha hf
    refine ⟨?_, hperm', ?_, ?_, hk', ha', hf',
      show (Json.getCachedSummary jdb v s t).2.summaries.length ≤ 100 by
        rw [hcard']
        exact hcard⟩
    · show CacheOut.recOut (Json.getCachedSummary jdb v s t).1 =
        adjustOut t (CacheOut.recOut (Sql.getCachedSummary sdb v s t).1)
      rw [hout]
      cases (Sql.getCachedSummary sdb v s t).1 <;> rfl
    · intro r hr
      show r.id < (Sql.getCachedSummary sdb v s t).2.nextId
      rw [hnext]
      have : r.id ∈ sdb.rows.map SRow.id := by
        rw [← hids]
        exact List.mem_map_of_mem SRow.id hr
      obtain ⟨y, hy, hyid⟩ := List.mem_map.1 this
      rw [← hyid]
      exact hb y hy
    · show ((Sql.getCachedSummary sdb v s t).2.rows.map SRow.id).Nodup
      rw [hids]
      exact hn
  | putSummary d =>
    have hslen : sdb.rows.length ≤ 100 := by
      rw [← List.length_map sdb.rows SRow.record, hperm.length_eq]
      exact hcard
    obtain ⟨hlen', hb', hn'⟩ := sql_save_inv sdb d t hslen hb hn
    refine ⟨rfl, sim_put sdb jdb d t hperm hk ha hf hcard hb hn, hb', hn',
      ?_, ?_, ?_, json_save_le jdb d t hcard⟩
    · exact (json_save_inv jdb d t (t + 1) hcard hk ha hf
        (Nat.lt_succ_self t)).2.1
    · exact (json_save_inv jdb d t (t + 1) hcard hk ha hf
        (Nat.lt_succ_self t)).2.2.1
    · intro t' ht'
      exact (json_save_inv jdb d t t' hcard hk ha hf ht').2.2.2
  | listRecent n =>
    refine ⟨?_, hperm, hb, hn, hk, ha,
      fun t' ht' x hx => Nat.lt_trans (hf x hx) ht', hcard⟩
    show CacheOut.listOut (Json.getRecentSummaries jdb n) =
      adjustOut t (CacheOut.listOut (Sql.getRecentSummaries sdb n))
    rw [recent_lists_eq hperm ha n]
    rfl

/-- Whole-run simulation with strictly increasing clock stamps. -/
theorem sim_run (ops : List (CacheOp × Nat)) :
    ∀ (sdb : SqliteDb) (jdb : JsonDb),
    (ops.map Prod.snd).Pairwise (· < ·) →
    (sdb.rows.map SRow.record).Perm jdb.summaries →
    sqlIdsBound sdb → sqlIdsNodup sdb →
    jsonKeysNodup jdb → jsonAccNodup jdb →
    (∀ q ∈ ops, jsonFresh jdb q.2) →
    jdb.summaries.length ≤ 100 →
    (jsonRun jdb ops).1 =
      List.zipWith (fun p o => adjustOut p.2 o) ops (sqlRun sdb ops).1 ∧
    ((sqlRun sdb ops).2.rows.map SRow.record).Perm
      (jsonRun jdb ops).2.summaries := by
  induction ops with
  | nil =>
    intro sdb jdb _ hperm _ _ _ _ _ _
    exact ⟨rfl, hperm⟩
  | cons p rest ih =>
    intro sdb jdb hchain hperm hb hn hk ha hf hcard
    obtain ⟨op, t⟩ := p
    rw [List.map_cons, List.pairwise_cons] at hchain
    obtain ⟨hout, hperm', hb', hn', hk', ha', hf', hcard'⟩ :=
      sim_step sdb jdb op t hperm hb hn hk ha
        (hf (op, t) (List.mem_cons_self _ _)) hcard
    have hrest := ih (sqlStep sdb op t).2 (jsonStep jdb op t).2 hchain.2
      hperm' hb' hn' hk' ha'
      (fun q hq => hf' q.2
        (hchain.1 q.2 (List.mem_map_of_mem Prod.snd hq)))
      hcard'
    refine ⟨?_, ?_⟩
    · show (jsonStep jdb op t).1 ::
          (jsonRun (jsonStep jdb op t).2 rest).1 =
        adjustOut t (sqlStep sdb op t).1 ::
          List.zipWith (fun p o => adjustOut p.2 o) rest
            (sqlRun (sqlStep sdb op t).2 rest).1
      rw [hout, hrest.1]
    · show ((sqlRun (sqlStep sdb op t).2 rest).2.rows.map SRow.record).Perm
        (jsonRun (jsonStep jdb op t).2 rest).2.summaries
      exact hrest.2

/-- C9 counterexample: the same two-operation sequence — a `put` at clock 0
then a `get` at clock 1 — returns different results on the two backends:
the SQLite `get` returns the record as read before the `accessed_at`
update (stamp 0), the whole-file `get` returns it freshly stamped (1). -/
theorem backend_outputs_differ_counterexample :
    (sqlRun emptySql [(CacheOp.putSummary ⟨"v", "u", "t", "s", "sty"⟩, 0),
        (CacheOp.getSummary "v" "sty", 1)]).1 ≠
    (jsonRun emptyJson [(CacheOp.putSummary ⟨"v", "u", "t", "s", "sty"⟩, 0),
        (CacheOp.getSummary "v" "sty", 1)]).1 := by
  decide

/-- C9 (amended): backend interchangeability up to the `get` stamp.  For
every operation sequence applied from the empty stores with identical,
strictly increasing clock values, the two backends return equal results
from every operation except that on a `get` hit the whole-file backend
returns the record with the freshly written `accessed_at` while the
transactional backend returns it with its pre-update stamp (the
`adjustOut` correction); afterwards the live record multisets are
equivalent. -/
theorem backend_equivalence_amended (ops : List (CacheOp × Nat))
    (hmono : clockStrictMono ops) :
    (jsonRun emptyJson ops).1 =
      List.zipWith (fun p o => adjustOut p.2 o) ops (sqlRun emptySql ops).1 ∧
    ((sqlRun emptySql ops).2.rows.map SRow.record).Perm
      (jsonRun emptyJson ops).2.summaries := by
  have hpw : (ops.map Prod.snd).Pairwise (· < ·) := by
    haveI : IsTrans Nat (· < ·) := ⟨fun a b c => Nat.lt_trans⟩
    exact List.chain'_iff_pairwise.1 hmono
  refine sim_run ops emptySql emptyJson hpw ?_ ?_ ?_ ?_ ?_ ?_ ?_
  · show (([] : List SRow).map SRow.record).Perm []
    rfl
  · intro r hr
    exact absurd hr (List.not_mem_nil r)
  · show (([] : List SRow).map SRow.id).Nodup
    simp
  · show (([] : List SummaryRecord).map SummaryRecord.key).Nodup
    simp
  · show (([] : List SummaryRecord).map SummaryRecord.accessed_at).Nodup
    simp
  · intro q _ x hx
    exact absurd hx (List.not_mem_nil x)
  · show ([] : List SummaryRecord).length ≤ 100
    simp

/-- C3: upsert key uniqueness with `createdAt` immutability, on both
backends.  Two `put` calls with the same key (and different `rawText`)
leave exactly one live record for that key; its `created_at` is the one the
first call wrote, and its `rawText` (`summary`), `title` and `accessed_at`
are the second call's. -/
theorem upsert_key_unique_created_immutable (sdb : SqliteDb) (jdb : JsonDb)
    (d1 d2 : SummaryData) (t1 t2 : Nat)
    (hkv : d2.videoId = d1.videoId) (hks : d2.style = d1.style)
    (_hdiff : d1.summary ≠ d2.summary)
    (hlen : sdb.rows.length ≤ 100) (hb : sqlIdsBound sdb)
    (hn : sqlIdsNodup sdb) (hfresh : sqlFresh sdb t1) (ht : t1 < t2)
    (hjlen : jdb.summaries.length ≤ 100) (hjk : jsonKeysNodup jdb)
    (hja : jsonAccNodup jdb) (hjfresh : jsonFresh jdb t1) :
    (∃ c,
      ((Sql.saveSummary sdb d1 t1).rows.filter
          (fun r => keyMatches r.record d1.videoId d1.style)).map SRow.record
        = [d1.toRecord c t1] ∧
      ((Sql.saveSummary (Sql.saveSummary sdb d1 t1) d2 t2).rows.filter
          (fun r => keyMatches r.record d1.videoId d1.style)).map SRow.record
        = [d2.toRecord c t2]) ∧
    (∃ c,
      (Json.saveSummary jdb d1 t1).summaries.filter
          (fun r => keyMatches r d1.videoId d1.style)
        = [d1.toRecord c t1] ∧
      (Json.saveSummary (Json.saveSummary jdb d1 t1) d2 t2).summaries.filter
          (fun r => keyMatches r d1.videoId d1.style)
        = [d2.toRecord c t2]) := by
  constructor
  · have h1 := sql_save_key_filter sdb d1 t1 hlen hb hn hfresh
    obtain ⟨hlen1, hb1, hn1⟩ := sql_save_inv sdb d1 t1 hlen hb hn
    have hfresh1 : sqlFresh (Sql.saveSummary sdb d1 t1) t2 :=
      sql_save_fresh sdb d1 t1 t2 hfresh ht
    have h2 := sql_save_key_filter (Sql.saveSummary sdb d1 t1) d2 t2
      hlen1 hb1 hn1 hfresh1
    rw [hkv, hks] at h2
    obtain ⟨row, hrow, hrowrec⟩ := map_eq_singleton h1
    have hfind1 : (Sql.saveSummary sdb d1 t1).rows.find?
        (fun r => keyMatches r.record d1.videoId d1.style) = some row :=
      find?_of_filter_singleton hrow
    have hcq2 : Sql.createdAtQuery (Sql.saveSummary sdb d1 t1) d2 t2 =
        Sql.createdAtQuery sdb d1 t1 := by
      show (match (Sql.saveSummary sdb d1 t1).rows.find?
          (fun r => keyMatches r.record d2.videoId d2.style) with
        | some r => r.record.created_at
        | none => t2) = _
      rw [hkv, hks, hfind1]
      show row.record.created_at = _
      rw [hrowrec]
      rfl
    rw [hcq2] at h2
    exact ⟨Sql.createdAtQuery sdb d1 t1, h1, h2⟩
  · have h1 := json_save_key_filter jdb d1 t1 hjlen hjk hjfresh
    obtain ⟨hjlen1, hjk1, hja1, hjfresh1⟩ :=
      json_save_inv jdb d1 t1 t2 hjlen hjk hja hjfresh ht
    have h2 := json_save_key_filter (Json.saveSummary jdb d1 t1) d2 t2
      hjlen1 hjk1 hjfresh1
    rw [hkv, hks] at h2
    have hfind1 : (Json.saveSummary jdb d1 t1).summaries.find?
        (fun r => keyMatches r d1.videoId d1.style) =
        some (d1.toRecord (Json.createdAtOf jdb d1 t1) t1) :=
      find?_of_filter_singleton h1
    have hcq2 : Json.createdAtOf (Json.saveSummary jdb d1 t1) d2 t2 =
        Json.createdAtOf jdb d1 t1 := by
      show (match (Json.saveSummary jdb d1 t1).summaries.find?
          (fun r => keyMatches r d2.videoId d2.style) with
        | some r => r.created_at
        | none => t2) = _
      rw [hkv, hks, hfind1]
      rfl
    rw [hcq2] at h2
    exact ⟨Json.createdAtOf jdb d1 t1, h1, h2⟩

end Cache

/-- Witness for C9 (amended): the put-then-get sequence of the
counterexample, with its strictly increasing clock discharged
concretely. -/
theorem backend_equivalence_amended_witness :
    (Cache.jsonRun Cache.emptyJson
        [(Cache.CacheOp.putSummary ⟨"v", "u", "t", "s", "sty"⟩, 0),
         (Cache.CacheOp.getSummary "v" "sty", 1)]).1 =
      List.zipWith (fun p o => Cache.adjustOut p.2 o)
        [(Cache.CacheOp.putSummary ⟨"v", "u", "t", "s", "sty"⟩, 0),
         (Cache.CacheOp.getSummary "v" "sty", 1)]
        (Cache.sqlRun Cache.emptySql
          [(Cache.CacheOp.putSummary ⟨"v", "u", "t", "s", "sty"⟩, 0),
           (Cache.CacheOp.getSummary "v" "sty", 1)]).1 ∧
    ((Cache.sqlRun Cache.emptySql
        [(Cache.CacheOp.putSummary ⟨"v", "u", "t", "s", "sty"⟩, 0),
         (Cache.CacheOp.getSummary "v" "sty", 1)]).2.rows.map
        Cache.SRow.record).Perm
      (Cache.jsonRun Cache.emptyJson
        [(Cache.CacheOp.putSummary ⟨"v", "u", "t", "s", "sty"⟩, 0),
         (Cache.CacheOp.getSummary "v" "sty", 1)]).2.summaries :=
  Cache.backend_equivalence_amended
    [(Cache.CacheOp.putSummary ⟨"v", "u", "t", "s", "sty"⟩, 0),
     (Cache.CacheOp.getSummary "v" "sty", 1)]
    (show List.Chain' (· < ·) [0, 1] from
      List.chain'_cons.2 ⟨by omega, List.chain'_singleton _⟩)

/-- Witness for C3: the empty stores, key ("v","s"), writes at clocks 1 and
2 with different raw texts. -/
theorem upsert_key_unique_witness :
    (∃ c,
      ((Cache.Sql.saveSummary (Cache.Sql.saveSummary Cache.emptySql
          ⟨"v", "u", "t", "s1", "sty"⟩ 1) ⟨"v", "u2", "t2", "s2", "sty"⟩
          2).rows.filter
          (fun r => Cache.keyMatches r.record "v" "sty")).map Cache.SRow.record
        = [Cache.SummaryData.toRecord ⟨"v", "u2", "t2", "s2", "sty"⟩ c 2]) ∧
    (∃ c,
      ((Cache.Json.saveSummary (Cache.Json.saveSummary Cache.emptyJson
          ⟨"v", "u", "t", "s1", "sty"⟩ 1) ⟨"v", "u2", "t2", "s2", "sty"⟩
          2).summaries.filter (fun r => Cache.keyMatches r "v" "sty"))
        = [Cache.SummaryData.toRecord ⟨"v", "u2", "t2", "s2", "sty"⟩ c 2]) := by
  have h := Cache.upsert_key_unique_created_immutable Cache.emptySql
    Cache.emptyJson ⟨"v", "u", "t", "s1", "sty"⟩ ⟨"v", "u2", "t2", "s2", "sty"⟩
    1 2 rfl rfl (by decide) (by decide) (by decide) (by decide) (by decide)
    (by decide) (by decide) (by decide) (by decide) (by decide)
  obtain ⟨⟨c1, -, hs⟩, ⟨c2, -, hj⟩⟩ := h
  exact ⟨⟨c1, hs⟩, ⟨c2, hj⟩⟩

/-- Witness for C1: both backends at the 100-record boundary with a fresh
key, stamped at clock 1000. -/
theorem capacity_invariant_witness :
    ((Cache.Sql.saveSummary Cache.wSqlDb Cache.wData 1000).rows.length = 100 ∧
     (∀ r ∈ (Cache.Sql.saveSummary Cache.wSqlDb Cache.wData 1000).rows,
       r ∈ (Cache.Sql.insertOrReplace Cache.wSqlDb Cache.wData 1000).rows) ∧
     (⟨Cache.wSqlDb.nextId, Cache.wData.toRecord 1000 1000⟩ : Cache.SRow) ∈
       (Cache.Sql.saveSummary Cache.wSqlDb Cache.wData 1000).rows ∧
     (∀ x ∈ (Cache.Sql.insertOrReplace Cache.wSqlDb Cache.wData 1000).rows,
       x ∉ (Cache.Sql.saveSummary Cache.wSqlDb Cache.wData 1000).rows →
       ∀ k ∈ (Cache.Sql.saveSummary Cache.wSqlDb Cache.wData 1000).rows,
         x.record.accessed_at < k.record.accessed_at)) ∧
    ((Cache.Json.saveSummary Cache.wJsonDb Cache.wData 1000).summaries.length
        = 100 ∧
     (∀ r ∈ (Cache.Json.saveSummary Cache.wJsonDb Cache.wData 1000).summaries,
       r ∈ Cache.wJsonDb.summaries ++ [Cache.wData.toRecord 1000 1000]) ∧
     Cache.wData.toRecord 1000 1000 ∈
       (Cache.Json.saveSummary Cache.wJsonDb Cache.wData 1000).summaries ∧
     (∀ x ∈ Cache.wJsonDb.summaries ++ [Cache.wData.toRecord 1000 1000],
       x ∉ (Cache.Json.saveSummary Cache.wJsonDb Cache.wData 1000).summaries →
       ∀ k ∈ (Cache.Json.saveSummary Cache.wJsonDb Cache.wData 1000).summaries,
         x.accessed_at < k.accessed_at)) :=
  ⟨Cache.capacity_invariant.2.1 Cache.wSqlDb Cache.wData 1000 (by decide)
      (by decide) (by decide) (by decide) (by decide) (by decide),
   Cache.capacity_invariant.2.2 Cache.wJsonDb Cache.wData 1000 (by decide)
      (by decide) (by decide) (by decide)⟩

/-- Witness for C7: a one-record store, `get` hit at clock 5 with pre-call
clock 3. -/
theorem get_effect_and_frame_witness :
    Cache.stampedAtKey [⟨"v", "u", "t", "x", "s", 1, 2⟩]
      [⟨"v", "u", "t", "x", "s", 1, 5⟩] "v" "s" 5 ∧
    (⟨"v", "u", "t", "x", "s", 1, 5⟩ : Cache.SummaryRecord).accessed_at = 5 ∧
    (3 : Nat) ≤ 5 :=
  (Cache.get_effect_and_frame ⟨[⟨1, ⟨"v", "u", "t", "x", "s", 1, 2⟩⟩], 2⟩
      ⟨[⟨"v", "u", "t", "x", "s", 1, 2⟩]⟩ "v" "s" 5 3 (by decide)
      (by decide)).2.2.1
    ⟨"v", "u", "t", "x", "s", 1, 5⟩ ⟨[⟨"v", "u", "t", "x", "s", 1, 5⟩]⟩
    (by decide)

/-- Witness for C6 at a concrete state and heading line. -/
theorem heading_segmentation_witness :
    Parser.stepLine ⟨['0'], ['x'], false, 0, []⟩ ['#', ' ', 'h'] none =
      ({ Parser.PState.mk ['0'] ['x'] false 0 [] with
           emptyLineCount := 0,
           currentPoint := ['#', ' ', 'h'] ++ ['\n'],
           points := if 0 < (Parser.trimChars ['x']).length
                     then Parser.PState.pushPoint ⟨['0'], ['x'], false, 0, []⟩
                     else [] }, false) :=
  heading_segmentation.1 ⟨['0'], ['x'], false, 0, []⟩ ['#', ' ', 'h'] none rfl
    (by decide) (by decide)
